import Mathlib

/-!
# CryptoDecompose: a shallow embedding of `main.go`

The program turns a line of text into a digit string, cuts it into chunks of at
most nine digits, writes every chunk as `base^exponent + remainder`, encodes the
resulting numbers with a per-number shift cipher and then undoes every step.

Modelling conventions

* A Go `string` is its sequence of bytes: `GoString = List Nat`, every element
  being a byte value (`< 256`) for strings the program can hold.
* A Go `int` is a 64 bit signed integer: it is modelled in `Int`, and every
  arithmetic operation that can leave the 64 bit range is followed by `wrap`.
* A run-time panic or a loop that does not end is an error value of `Except`.
* The two floating-point computations of `decomposeInteger` are not computed in
  the model: they are the two fields of `FloatEst`, a parameter of the model.
* The functions of the Go standard library that the program calls
  (`strconv.Atoi`, `strconv.Itoa`, `fmt.Sprintf("%03d", _)`, the rune decoder of
  `for range` over a string, `string(rune)`) are modelled after their documented
  behaviour.
-/

namespace CryptoDecompose

/-! ## Machine integers and strings -/

/-- A Go string, as its bytes. -/
abbrev GoString := List Nat

/-- Smallest value of a Go `int` (64 bit). -/
abbrev minInt64 : Int := -9223372036854775808

/-- Largest value of a Go `int` (64 bit). -/
abbrev maxInt64 : Int := 9223372036854775807

/-- The value is representable as a Go `int`. -/
def IsInt64 (x : Int) : Prop := -9223372036854775808 ≤ x ∧ x ≤ 9223372036854775807

instance (x : Int) : Decidable (IsInt64 x) := by
  unfold IsInt64
  exact inferInstance

/-- Two's complement wrap-around of a 64 bit signed integer operation. -/
def wrap (x : Int) : Int :=
  (x + 9223372036854775808) % 18446744073709551616 - 9223372036854775808

/-- Conversion `rune(x)` of an `int` to a 32 bit signed integer. -/
def wrap32 (x : Int) : Int :=
  (x + 2147483648) % 4294967296 - 2147483648

/-- Run-time failures of the program. -/
inductive GoError where
  | indexOutOfRange
  | sliceBoundsOutOfRange
  | fuelExhausted
  deriving DecidableEq, Repr

deriving instance DecidableEq for Except

/-! ## Standard library: decimal rendering and parsing -/

/-- The byte is one of the characters `0` to `9`. -/
def isDigit (c : Nat) : Bool := 48 ≤ c && c ≤ 57

/-- Decimal digits of `n`, most significant first, put in front of `acc`. -/
def natToDecLoop : Nat → Nat → GoString → GoString
  | 0, _, acc => acc
  | fuel + 1, n, acc =>
    if n < 10 then (48 + n) :: acc
    else natToDecLoop fuel (n / 10) ((48 + n % 10) :: acc)

/-- Canonical decimal rendering of a natural number. -/
def natToDec (n : Nat) : GoString := natToDecLoop (n + 1) n []

/-- Model of `strconv.Itoa`. -/
def Itoa (x : Int) : GoString :=
  if x < 0 then 45 :: natToDec (-x).toNat else natToDec x.toNat

/-- Result of `strconv.ParseUint` in base 10 with 64 bits. -/
inductive UintResult where
  | value (n : Nat)
  | invalid
  | outOfRange
  deriving DecidableEq, Repr

/-- The digit loop of `strconv.ParseUint(s, 10, 64)`: a character that is not a
digit makes the string invalid, and the loop stops with a range error as soon
as the value leaves 64 bits. -/
def parseUintLoop : GoString → Nat → UintResult
  | [], n => .value n
  | c :: cs, n =>
    if !isDigit c then .invalid
    else if n ≥ 1844674407370955162 then .outOfRange
    else if n * 10 + (c - 48) > 18446744073709551615 then .outOfRange
    else parseUintLoop cs (n * 10 + (c - 48))

/-- Model of `strconv.ParseUint(s, 10, 64)`. -/
def parseUint (s : GoString) : UintResult :=
  match s with
  | [] => .invalid
  | _ :: _ => parseUintLoop s 0

/-- Model of `strconv.Atoi` with its error dropped (`v, _ := strconv.Atoi(s)`):
an invalid string gives 0, a value out of range gives the nearest `int`. -/
def Atoi (s : GoString) : Int :=
  match s with
  | 45 :: t =>
    match parseUint t with
    | .value n => if n > 9223372036854775808 then minInt64 else -(n : Int)
    | .invalid => 0
    | .outOfRange => minInt64
  | 43 :: t =>
    match parseUint t with
    | .value n => if n ≥ 9223372036854775808 then maxInt64 else (n : Int)
    | .invalid => 0
    | .outOfRange => maxInt64
  | _ =>
    match parseUint s with
    | .value n => if n ≥ 9223372036854775808 then maxInt64 else (n : Int)
    | .invalid => 0
    | .outOfRange => maxInt64

/-- The unsigned decimal value of a string of digits, read from the left with
`acc` as the value of what was read before. -/
def decValueFrom : GoString → Nat → Nat
  | [], acc => acc
  | c :: cs, acc => decValueFrom cs (acc * 10 + (c - 48))

/-- The unsigned decimal value of a string of digits, as the spec words it for
a window of the chunker and for a triple of the codec. -/
def decValue (s : GoString) : Nat := decValueFrom s 0

/-- The re-padding step `if len(s) < width { s = strings.Repeat("0", width-len(s)) + s }`. -/
def padZeros (s : GoString) (width : Int) : GoString :=
  if (s.length : Int) < width then List.replicate (width - s.length).toNat 48 ++ s else s

/-- Model of `fmt.Sprintf("%03d", by)` for a byte `by`. -/
def sprintf03d (b : Nat) : GoString := padZeros (natToDec b) 3

/-! ## Standard library: runes -/

/-- The replacement character U+FFFD. -/
def runeError : Int := 65533

/-- The byte is a UTF-8 continuation byte. -/
def isCont (b : Nat) : Bool := 128 ≤ b && b ≤ 191

/-- The rune at the front of a non-empty string and the number of bytes it
takes, as `for range` over a string decodes it. -/
def decodeRune : GoString → Int × Nat
  | [] => (runeError, 1)
  | b0 :: t =>
    if b0 < 128 then ((b0 : Int), 1)
    else if 192 ≤ b0 ∧ b0 < 224 then
      match t with
      | b1 :: _ =>
        let r := (b0 % 32) * 64 + b1 % 64
        if isCont b1 ∧ 127 < r then ((r : Int), 2) else (runeError, 1)
      | [] => (runeError, 1)
    else if 224 ≤ b0 ∧ b0 < 240 then
      match t with
      | b1 :: b2 :: _ =>
        let r := (b0 % 16) * 4096 + (b1 % 64) * 64 + b2 % 64
        if isCont b1 ∧ isCont b2 ∧ 2047 < r ∧ ¬ (55296 ≤ r ∧ r ≤ 57343) then ((r : Int), 3)
        else (runeError, 1)
      | _ => (runeError, 1)
    else if 240 ≤ b0 ∧ b0 < 248 then
      match t with
      | b1 :: b2 :: b3 :: _ =>
        let r := (b0 % 8) * 262144 + (b1 % 64) * 4096 + (b2 % 64) * 64 + b3 % 64
        if isCont b1 ∧ isCont b2 ∧ isCont b3 ∧ 65535 < r ∧ r ≤ 1114111 then ((r : Int), 4)
        else (runeError, 1)
      | _ => (runeError, 1)
    else (runeError, 1)

/-- Model of the conversion `string(r)` of a rune: its UTF-8 encoding. -/
def encodeRune (r : Int) : GoString :=
  let n := r.toNat
  if 0 ≤ r ∧ r ≤ 127 then [n]
  else if 0 ≤ r ∧ r ≤ 2047 then [192 + n / 64, 128 + n % 64]
  else if r < 0 ∨ r > 1114111 ∨ (55296 ≤ r ∧ r ≤ 57343) then [239, 191, 189]
  else if r ≤ 65535 then [224 + n / 4096, 128 + n / 64 % 64, 128 + n % 64]
  else [240 + n / 262144, 128 + n / 4096 % 64, 128 + n / 64 % 64, 128 + n % 64]

/-! ## Exponentiation -/

/-- The loop of `intPow`; inside the guard `b > 0` the tests `b&1 == 1` and
`b >>= 1` are `b % 2 = 1` and `b / 2`. -/
def intPowLoop : Nat → Int → Int → Int → Int
  | 0, _, _, res => res
  | fuel + 1, a, b, res =>
    if b > 0 then
      intPowLoop fuel (wrap (a * a)) (b / 2) (if b % 2 = 1 then wrap (res * a) else res)
    else res

/-- Binary square-and-multiply `intPow(a, b)`. -/
def intPow (a b : Int) : Int := intPowLoop b.toNat a b 1

/-- The loop of `intPowUpToLimit`, with the number of iterations left. -/
def intPowUpToLimitLoop (a limit : Int) : Nat → Int → Int × Bool
  | 0, res => (res, false)
  | k + 1, res =>
    if a ≠ 0 ∧ res > wrap (limit.tdiv a) then (0, true)
    else if wrap (res * a) > limit then (0, true)
    else intPowUpToLimitLoop a limit k (wrap (res * a))

/-- Guarded exponentiation `intPowUpToLimit(a, b, limit)`. -/
def intPowUpToLimit (a b limit : Int) : Int × Bool :=
  intPowUpToLimitLoop a limit b.toNat 1

/-! ## Power decomposition -/

/-- The triple `base^exponent + remainder` of one chunk. -/
structure Decomposition where
  Base : Int
  Exponent : Int
  Remainder : Int
  deriving DecidableEq, Repr

/-- The two floating-point estimates of `decomposeInteger`:
`sqrtFloor num` stands for `int(math.Sqrt(float64(num)))` and
`logRatio num base` for `int(math.Log(float64(num)) / math.Log(float64(base)))`.
Both are taken to lie far inside the 64 bit range, as the square root and the
logarithm of a 64 bit number do: `sqrtFloor num + 2` and the three probed
exponents `g - 1`, `g`, `g + 1` are then computed without overflow. -/
structure FloatEst where
  sqrtFloor : Int → Int
  logRatio : Int → Int → Int

/-- The variables `best`, `minRemainder` and `found` of the search. -/
structure SearchState where
  best : Decomposition
  minRemainder : Int
  found : Bool
  deriving DecidableEq, Repr

/-- One pass through the body of the inner loop of `decomposeInteger`. -/
def probe (num base : Int) (st : SearchState) (exp : Int) : SearchState :=
  if exp < 1 then st
  else
    let r := intPowUpToLimit base exp num
    if r.2 || r.1 > num then st
    else
      let remainder := wrap (num - r.1)
      if remainder > 0 ∧ remainder < st.minRemainder then
        { best := { Base := base, Exponent := exp, Remainder := remainder },
          minRemainder := remainder, found := true }
      else st

/-- The exponents probed for one base. -/
def exponentsFor (est : FloatEst) (num base : Int) : List Int :=
  let exponentGuess := est.logRatio num base
  [exponentGuess - 1, exponentGuess, exponentGuess + 1]

/-- One pass through the body of the outer loop of `decomposeInteger`. -/
def baseStep (est : FloatEst) (num : Int) (st : SearchState) (base : Int) : SearchState :=
  (exponentsFor est num base).foldl (probe num base) st

/-- The bases `2, 3, ..., maxBase` in the order of the outer loop. -/
def basesUpTo (maxBase : Int) : List Int :=
  (List.range (maxBase - 1).toNat).map (fun (i : Nat) => (i : Int) + 2)

/-- The state of the search of `decomposeInteger` after the outer loop. -/
def searchResult (est : FloatEst) (num : Int) : SearchState :=
  (basesUpTo (est.sqrtFloor num + 2)).foldl (baseStep est num)
    { best := { Base := 0, Exponent := 0, Remainder := 0 }, minRemainder := num, found := false }

/-- Model of `decomposeInteger(num)`. -/
def decomposeInteger (est : FloatEst) (num : Int) : Decomposition :=
  if num < 4 then { Base := num, Exponent := 1, Remainder := 0 }
  else
    let st := searchResult est num
    if !st.found then { Base := wrap (num - 1), Exponent := 1, Remainder := 1 }
    else st.best

/-- What the search has established once a candidate is recorded. -/
def SearchInv (num : Int) (st : SearchState) : Prop :=
  st.found = true →
    2 ≤ st.best.Base ∧ 1 ≤ st.best.Exponent ∧ 1 ≤ st.best.Remainder ∧
      st.best.Base ^ st.best.Exponent.toNat + st.best.Remainder = num

/-- What the search has established about the pairs `(base, exponent)` it has
probed so far, `P` being the set of these pairs: `minRemainder` is below every
positive remainder `num - base^exponent` among them, and the recorded candidate
is one of them, attains `minRemainder`, and has the smallest base among the
pairs that attain it. -/
def MinInv (num : Int) (P : Int → Int → Prop) (st : SearchState) : Prop :=
  st.minRemainder ≤ num ∧
    (st.found = false → st.minRemainder = num) ∧
    (∀ b e : Int, P b e → 1 ≤ e → b ^ e.toNat < num → st.minRemainder ≤ num - b ^ e.toNat) ∧
    (st.found = true →
      P st.best.Base st.best.Exponent ∧ 1 ≤ st.best.Exponent ∧
        st.best.Base ^ st.best.Exponent.toNat < num ∧
        st.best.Remainder = num - st.best.Base ^ st.best.Exponent.toNat ∧
        st.minRemainder = st.best.Remainder ∧
        ∀ b e : Int, P b e → 1 ≤ e → b ^ e.toNat < num →
          num - b ^ e.toNat = st.minRemainder → st.best.Base ≤ b)

/-- The pairs `(base, exponent)` for which the search calls `intPowUpToLimit`. -/
def probedPairs (est : FloatEst) (num : Int) : List (Int × Int) :=
  (basesUpTo (est.sqrtFloor num + 2)).flatMap
    (fun base => ((exponentsFor est num base).filter (fun exp => decide (1 ≤ exp))).map
      (fun exp => (base, exp)))

/-- Largest `k` with `k * k ≤ n`, by counting up from `k`. -/
def floorSqrtLoop (n : Nat) : Nat → Nat → Nat
  | 0, k => k
  | fuel + 1, k => if (k + 1) * (k + 1) ≤ n then floorSqrtLoop n fuel (k + 1) else k

/-- Largest `e` with `b ^ e ≤ n`, by counting up; `p` is `b ^ e`. -/
def floorLogLoop (b n : Nat) : Nat → Nat → Nat → Nat
  | 0, _, e => e
  | fuel + 1, p, e => if p * b ≤ n then floorLogLoop b n fuel (p * b) (e + 1) else e

/-- The estimates a floating-point unit without rounding error returns:
the integer square root and the integer logarithm. -/
def exactEst : FloatEst where
  sqrtFloor := fun num => (floorSqrtLoop num.toNat num.toNat 0 : Nat)
  logRatio := fun num base =>
    if base.toNat < 2 then 0 else (floorLogLoop base.toNat num.toNat num.toNat 1 0 : Nat)

/-! ## Digit codec and chunker -/

/-- Model of `textToDigits`. -/
def textToDigits : GoString → GoString
  | [] => []
  | b :: rest => sprintf03d b ++ textToDigits rest

/-- Model of `digitsToText`. -/
def digitsToText : GoString → GoString
  | a :: b :: c :: rest =>
    let code := Atoi [a, b, c]
    let code := if code < 0 then 0 else code
    let code := if code > 255 then 255 else code
    (code.toNat % 256) :: digitsToText rest
  | _ => []

/-- The loop of `splitDigitsToInts` on the part of the string from `pos` on. -/
def splitLoop (maxPartDigits : Int) : Nat → GoString → Except GoError (List Int × List Int)
  | _, [] => .ok ([], [])
  | 0, _ :: _ => .error .fuelExhausted
  | fuel + 1, c :: cs =>
    if maxPartDigits < 0 then .error .sliceBoundsOutOfRange
    else
      let partStr := (c :: cs).take maxPartDigits.toNat
      match splitLoop maxPartDigits fuel ((c :: cs).drop maxPartDigits.toNat) with
      | .ok (parts, lens) => .ok (Atoi partStr :: parts, (partStr.length : Int) :: lens)
      | .error e => .error e

/-- Model of `splitDigitsToInts(digits, maxPartDigits)`. -/
def splitDigitsToInts (digits : GoString) (maxPartDigits : Int) :
    Except GoError (List Int × List Int) :=
  splitLoop maxPartDigits digits.length digits

/-- The `merge` of the chunker, as the spec words it: every value rendered in
decimal, left-padded with zeros to its recorded width, all concatenated. It is
what the first loop of `reconstructOriginal` does with a rebuilt value. -/
def mergeChunks (values widths : List Int) : GoString :=
  (List.zipWith (fun (v : Int) (w : Int) => padZeros (Itoa v) w) values widths).flatten

/-! ## Serializer and shift cipher -/

/-- Model of `decomposeParts`. -/
def decomposeParts (est : FloatEst) : List Int → List Decomposition × List GoString
  | [] => ([], [])
  | part :: rest =>
    let decomp := decomposeInteger est part
    let r := decomposeParts est rest
    (decomp :: r.1, Itoa decomp.Base :: Itoa decomp.Exponent :: Itoa decomp.Remainder :: r.2)

/-- Model of `encryptNumber(num)`: the string of the character and the shift. -/
def encryptNumber (num : Int) : GoString × Int :=
  let shift := wrap (32 - num)
  let shift := if num ≥ 32 then 0 else shift
  let shifted := wrap (num + shift)
  if shifted > 126 then
    let shift := wrap (126 - num)
    let shifted := wrap (num + shift)
    (encodeRune (wrap32 shifted), shift)
  else (encodeRune (wrap32 shifted), shift)

/-- Model of `encryptSequence(seq)`. -/
def encryptSequence : List GoString → GoString × List Int
  | [] => ([], [])
  | numStr :: rest =>
    let num := Atoi numStr
    let cs := encryptNumber num
    let r := encryptSequence rest
    (cs.1 ++ r.1, cs.2 :: r.2)

/-- The loop of `decryptASCII` at byte offset `i`, on the rest of the string. -/
def decryptLoop (shifts : List Int) : Nat → Nat → GoString → Except GoError (List GoString)
  | _, _, [] => .ok []
  | 0, _, _ :: _ => .error .fuelExhausted
  | fuel + 1, i, c :: cs =>
    let d := decodeRune (c :: cs)
    match shifts[i]? with
    | none => .error .indexOutOfRange
    | some shift =>
      match decryptLoop shifts fuel (i + d.2) ((c :: cs).drop d.2) with
      | .ok decrypted => .ok (Itoa (wrap (d.1 - shift)) :: decrypted)
      | .error e => .error e

/-- Model of `decryptASCII(encrypted, shifts)`. -/
def decryptASCII (encrypted : GoString) (shifts : List Int) : Except GoError (List GoString) :=
  decryptLoop shifts encrypted.length 0 encrypted

/-! ## Reconstructor -/

/-- The first loop of `reconstructOriginal`; `k` is `len(parts)`. -/
def rebuildLoop (partLengths : List Int) : List GoString → Nat → List GoString
  | b :: e :: r :: rest, k =>
    let val := wrap (intPow (Atoi b) (Atoi e) + Atoi r)
    let partStr := Itoa val
    let partStr :=
      match partLengths[k]? with
      | some width => padZeros partStr width
      | none => partStr
    partStr :: rebuildLoop partLengths rest (k + 1)
  | _, _ => []

/-- The second loop of `reconstructOriginal` (the consistency guard) from index `i` on. -/
def guardLoop (originalParts partLengths : List Int) : List GoString → Nat → List GoString
  | [], _ => []
  | p :: ps, i =>
    let p :=
      match originalParts[i]?, partLengths[i]? with
      | some orig, some width => if Atoi p ≠ orig then padZeros (Itoa orig) width else p
      | _, _ => p
    p :: guardLoop originalParts partLengths ps (i + 1)

/-- Model of `reconstructOriginal`. -/
def reconstructOriginal (decryptedNumbers : List GoString) (originalParts partLengths : List Int) :
    GoString :=
  let parts := rebuildLoop partLengths decryptedNumbers 0
  let parts := guardLoop originalParts partLengths parts 0
  digitsToText parts.flatten

/-- Model of `processInput`: the reconstructed text it prints last. -/
def processInput (est : FloatEst) (input : GoString) : Except GoError GoString :=
  match splitDigitsToInts (textToDigits input) 9 with
  | .error e => .error e
  | .ok (parts, partLens) =>
    let sequence := (decomposeParts est parts).2
    let enc := encryptSequence sequence
    match decryptASCII enc.1 enc.2 with
    | .error e => .error e
    | .ok decryptedNumbers => .ok (reconstructOriginal decryptedNumbers parts partLens)


/-! ## Lemmas: machine integers -/

theorem wrap_of_isInt64 {x : Int} (h : IsInt64 x) : wrap x = x := by
  unfold IsInt64 at h
  unfold wrap
  omega

theorem isInt64_wrap (x : Int) : IsInt64 (wrap x) := by
  unfold IsInt64 wrap
  omega

theorem wrap_modEq (x : Int) : wrap x ≡ x [ZMOD 18446744073709551616] := by
  unfold wrap Int.ModEq
  omega

theorem wrap_eq_of_modEq {x y : Int} (h : x ≡ y [ZMOD 18446744073709551616]) :
    wrap x = wrap y := by
  unfold Int.ModEq at h
  unfold wrap
  omega

theorem wrap32_of_small {x : Int} (h0 : 0 ≤ x) (h1 : x ≤ 127) : wrap32 x = x := by
  unfold wrap32
  omega

/-! ## Lemmas: decimal rendering -/

theorem natToDecLoop_acc (fuel n : Nat) (acc : GoString) :
    natToDecLoop fuel n acc = natToDecLoop fuel n [] ++ acc := by
  induction fuel generalizing n acc with
  | zero => simp [natToDecLoop]
  | succ f ih =>
    simp only [natToDecLoop]
    split
    · simp
    · rw [ih (n / 10) ((48 + n % 10) :: acc), ih (n / 10) [48 + n % 10]]
      simp

theorem natToDecLoop_fuel (f g n : Nat) (acc : GoString) (hf : n < f) (hg : n < g) :
    natToDecLoop f n acc = natToDecLoop g n acc := by
  induction f generalizing g n acc with
  | zero => omega
  | succ f ih =>
    cases g with
    | zero => omega
    | succ g =>
      simp only [natToDecLoop]
      split
      · rfl
      · exact ih g (n / 10) _ (by omega) (by omega)

theorem natToDec_small {n : Nat} (h : n < 10) : natToDec n = [48 + n] := by
  simp [natToDec, natToDecLoop, h]

theorem natToDec_step {n : Nat} (h : 10 ≤ n) :
    natToDec n = natToDec (n / 10) ++ [48 + n % 10] := by
  have h1 : ¬ n < 10 := by omega
  simp only [natToDec, natToDecLoop, h1, if_false]
  rw [natToDecLoop_acc n (n / 10) [48 + n % 10]]
  congr 1
  exact natToDecLoop_fuel n (n / 10 + 1) (n / 10) [] (by omega) (by omega)

theorem sprintf03d_eq {b : Nat} (h : b < 256) :
    sprintf03d b = [48 + b / 100, 48 + b / 10 % 10, 48 + b % 10] := by
  unfold sprintf03d padZeros
  by_cases h1 : b < 10
  · rw [natToDec_small h1]
    have e1 : b / 100 = 0 := by omega
    have e2 : b / 10 % 10 = 0 := by omega
    have e3 : b % 10 = b := by omega
    simp [e1, e2, e3, List.replicate]
  · by_cases h2 : b < 100
    · rw [natToDec_step (by omega), natToDec_small (by omega : b / 10 < 10)]
      have e1 : b / 100 = 0 := by omega
      have e2 : b / 10 % 10 = b / 10 := by omega
      simp [e1, e2, List.replicate]
    · rw [natToDec_step (by omega), natToDec_step (by omega : 10 ≤ b / 10),
        natToDec_small (by omega : b / 10 / 10 < 10)]
      have e1 : b / 10 / 10 = b / 100 := by omega
      simp [e1]

theorem textToDigits_length (text : GoString) (h : ∀ b ∈ text, b < 256) :
    (textToDigits text).length = 3 * text.length := by
  induction text with
  | nil => rfl
  | cons b rest ih =>
    have hb : b < 256 := h b (by simp)
    have hr : ∀ c ∈ rest, c < 256 := fun c hc => h c (by simp [hc])
    simp only [textToDigits, List.length_append, List.length_cons, ih hr, sprintf03d_eq hb]
    simp
    omega

theorem textToDigits_isDigit (text : GoString) (h : ∀ b ∈ text, b < 256) :
    ∀ c ∈ textToDigits text, isDigit c = true := by
  induction text with
  | nil => simp [textToDigits]
  | cons b rest ih =>
    have hb : b < 256 := h b (by simp)
    have hr : ∀ c ∈ rest, c < 256 := fun c hc => h c (by simp [hc])
    intro c hc
    simp only [textToDigits, List.mem_append, sprintf03d_eq hb] at hc
    rcases hc with hc | hc
    · simp only [List.mem_cons, List.mem_singleton, List.not_mem_nil, or_false] at hc
      unfold isDigit
      rcases hc with hc | hc | hc <;> subst hc <;> simp <;> omega
    · exact ih hr c hc

theorem textToDigits_triple (text : GoString) (h : ∀ b ∈ text, b < 256) (i : Nat)
    (hi : i < text.length) :
    ((textToDigits text).drop (3 * i)).take 3 = sprintf03d text[i] := by
  induction text generalizing i with
  | nil => simp at hi
  | cons b rest ih =>
    have hb : b < 256 := h b (by simp)
    have hr : ∀ c ∈ rest, c < 256 := fun c hc => h c (by simp [hc])
    have hlen : (sprintf03d b).length = 3 := by rw [sprintf03d_eq hb]; rfl
    cases i with
    | zero =>
      simp only [textToDigits, Nat.mul_zero, List.drop_zero, List.getElem_cons_zero]
      rw [List.take_append_of_le_length (by omega)]
      rw [List.take_of_length_le (by omega)]
    | succ j =>
      have hj : j < rest.length := by simpa using hi
      simp only [textToDigits, List.getElem_cons_succ]
      have e : 3 * (j + 1) = (sprintf03d b).length + 3 * j := by omega
      rw [e, List.drop_append]
      exact ih hr j hj

/-! ## Lemmas: exponentiation -/

theorem eq_wrap_of_modEq {x y : Int} (hx : IsInt64 x)
    (h : x ≡ y [ZMOD 18446744073709551616]) : x = wrap y := by
  rw [← wrap_eq_of_modEq h, wrap_of_isInt64 hx]

theorem isInt64_intPowLoop (fuel : Nat) (a b res : Int) (h : IsInt64 res) :
    IsInt64 (intPowLoop fuel a b res) := by
  induction fuel generalizing a b res with
  | zero => simpa [intPowLoop] using h
  | succ f ih =>
    simp only [intPowLoop]
    split
    · apply ih
      split
      · exact isInt64_wrap _
      · exact h
    · exact h

theorem intPowLoop_modEq (fuel : Nat) (a b res : Int) (hb : 0 ≤ b) (hf : b.toNat ≤ fuel) :
    intPowLoop fuel a b res ≡ res * a ^ b.toNat [ZMOD 18446744073709551616] := by
  induction fuel generalizing a b res with
  | zero =>
    have : b.toNat = 0 := by omega
    simp [intPowLoop, this]
  | succ f ih =>
    simp only [intPowLoop]
    by_cases hpos : b > 0
    · simp only [hpos, if_true]
      have hb2 : 0 ≤ b / 2 := by omega
      have hf2 : (b / 2).toNat ≤ f := by omega
      refine (ih (wrap (a * a)) (b / 2) _ hb2 hf2).trans ?_
      have hsq : wrap (a * a) ^ (b / 2).toNat ≡ (a * a) ^ (b / 2).toNat
          [ZMOD 18446744073709551616] := (wrap_modEq (a * a)).pow _
      by_cases hodd : b % 2 = 1
      · simp only [hodd, if_true]
        have hexp : b.toNat = 2 * (b / 2).toNat + 1 := by omega
        have e : res * a ^ (2 * (b / 2).toNat + 1) = res * a * (a * a) ^ (b / 2).toNat := by
          rw [pow_succ, pow_mul, pow_two]; ring
        rw [hexp, e]
        exact (wrap_modEq (res * a)).mul hsq
      · simp only [hodd, if_false]
        have hexp : b.toNat = 2 * (b / 2).toNat := by omega
        rw [hexp, pow_mul, pow_two]
        exact Int.ModEq.mul_left res hsq
    · have : b.toNat = 0 := by omega
      simp [hpos, this]

/-- For a non-negative exponent `intPow` is the power, reduced to 64 bits. -/
theorem intPow_eq_wrap (a b : Int) (hb : 0 ≤ b) : intPow a b = wrap (a ^ b.toNat) := by
  unfold intPow
  apply eq_wrap_of_modEq
  · exact isInt64_intPowLoop _ _ _ _ (by unfold IsInt64; omega)
  · simpa using intPowLoop_modEq b.toNat a b 1 hb (le_refl _)

theorem intPow_eq_pow (a b : Int) (hb : 0 ≤ b) (h : IsInt64 (a ^ b.toNat)) :
    intPow a b = a ^ b.toNat := by
  rw [intPow_eq_wrap a b hb, wrap_of_isInt64 h]

theorem intPow_one_exp (a : Int) (h : IsInt64 a) : intPow a 1 = a := by
  rw [intPow_eq_pow a 1 (by omega)] <;> simp [h]

/-- With a positive base, a limit that fits 64 bits and a running product within
the limit, the guarded loop returns the product when it is within the limit and
signals an overflow otherwise. -/
theorem intPowUpToLimitLoop_eq (a limit : Int) (ha : 1 ≤ a) (hl : limit ≤ 9223372036854775807)
    (k : Nat) (res : Int) (hr : 1 ≤ res) (hrl : res ≤ limit) :
    intPowUpToLimitLoop a limit k res =
      if res * a ^ k ≤ limit then (res * a ^ k, false) else (0, true) := by
  induction k generalizing res with
  | zero => simp [intPowUpToLimitLoop, hrl]
  | succ k ih =>
    have hl0 : 0 ≤ limit := by omega
    have hdiv : limit.tdiv a = limit / a := Int.tdiv_eq_ediv hl0 (by omega)
    have hq0 : 0 ≤ limit / a := Int.ediv_nonneg hl0 (by omega)
    have hqle : limit / a ≤ limit := Int.ediv_le_self _ hl0
    have hwq : wrap (limit / a) = limit / a := wrap_of_isInt64 (by unfold IsInt64; omega)
    have hpow : 1 ≤ a ^ k := one_le_pow₀ ha
    have hmul : limit / a * a ≤ limit := Int.ediv_mul_le _ (by omega)
    have hlt : limit < (limit / a + 1) * a := by
      have := Int.lt_ediv_add_one_mul_self limit (by omega : 0 < a)
      linarith
    simp only [intPowUpToLimitLoop, hdiv, hwq]
    by_cases hc : res > limit / a
    · have h1 : limit < res * a := by
        have : (limit / a + 1) * a ≤ res * a := by
          apply mul_le_mul_of_nonneg_right _ (by omega)
          omega
        omega
      have h2 : limit < res * a ^ (k + 1) := by
        have : res * a * 1 ≤ res * a * a ^ k :=
          mul_le_mul_of_nonneg_left hpow (by nlinarith)
        rw [pow_succ]
        have e : res * (a ^ k * a) = res * a * a ^ k := by ring
        rw [e]
        omega
      have ha0 : a ≠ 0 := by omega
      simp [hc, ha0, not_le.mpr h2]
    · have h1 : res * a ≤ limit := by
        have : res * a ≤ limit / a * a := by
          apply mul_le_mul_of_nonneg_right _ (by omega)
          omega
        omega
      have h0 : 1 ≤ res * a := by nlinarith
      have hw : wrap (res * a) = res * a := wrap_of_isInt64 (by unfold IsInt64; omega)
      have e : res * a ^ (k + 1) = res * a * a ^ k := by rw [pow_succ]; ring
      simp only [hc, and_false, if_false, hw, not_lt.mpr h1, e]
      exact ih (res * a) h0 h1

theorem intPowUpToLimit_eq (a b limit : Int) (ha : 1 ≤ a) (hl1 : 1 ≤ limit)
    (hl : limit ≤ 9223372036854775807) :
    intPowUpToLimit a b limit =
      if a ^ b.toNat ≤ limit then (a ^ b.toNat, false) else (0, true) := by
  unfold intPowUpToLimit
  rw [intPowUpToLimitLoop_eq a limit ha hl b.toNat 1 (le_refl _) hl1]
  simp

/-! ## Lemmas: the search of `decomposeInteger` -/

theorem foldl_invariant {α β : Type} (P : α → Prop) (Q : β → Prop) (f : α → β → α)
    (hf : ∀ s x, P s → Q x → P (f s x)) (l : List β) (hl : ∀ x ∈ l, Q x) (s : α) (hs : P s) :
    P (l.foldl f s) := by
  induction l generalizing s with
  | nil => simpa using hs
  | cons x xs ih =>
    simp only [List.foldl_cons]
    exact ih (fun y hy => hl y (by simp [hy])) _ (hf s x hs (hl x (by simp)))

theorem two_le_of_mem_basesUpTo {maxBase base : Int} (h : base ∈ basesUpTo maxBase) :
    2 ≤ base := by
  unfold basesUpTo at h
  simp only [List.mem_map, List.mem_range] at h
  obtain ⟨i, _, rfl⟩ := h
  omega

theorem probe_inv (num base exp : Int) (st : SearchState) (hn : 4 ≤ num)
    (hmax : num ≤ 9223372036854775807) (hb : 2 ≤ base) (hst : SearchInv num st) :
    SearchInv num (probe num base st exp) := by
  unfold probe
  by_cases he : exp < 1
  · simpa [he] using hst
  · simp only [he, if_false]
    rw [intPowUpToLimit_eq base exp num (by omega) (by omega) hmax]
    by_cases hp : base ^ exp.toNat ≤ num
    · have hpos : 0 < base ^ exp.toNat := pow_pos (by omega) _
      have hw : wrap (num - base ^ exp.toNat) = num - base ^ exp.toNat :=
        wrap_of_isInt64 (by unfold IsInt64; omega)
      simp only [hp, if_true, Bool.false_or, decide_eq_true_eq, not_lt.mpr hp, if_false, hw]
      split
      · rename_i hr
        intro _
        simp only
        refine ⟨hb, by omega, by omega, by ring⟩
      · exact hst
    · simpa [hp] using hst

theorem baseStep_inv (est : FloatEst) (num base : Int) (st : SearchState) (hn : 4 ≤ num)
    (hmax : num ≤ 9223372036854775807) (hb : 2 ≤ base) (hst : SearchInv num st) :
    SearchInv num (baseStep est num st base) := by
  unfold baseStep
  exact foldl_invariant (SearchInv num) (fun _ => True) (probe num base)
    (fun s x hs _ => probe_inv num base x s hn hmax hb hs) _ (fun _ _ => trivial) st hst

theorem searchResult_inv (est : FloatEst) (num : Int) (hn : 4 ≤ num)
    (hmax : num ≤ 9223372036854775807) : SearchInv num (searchResult est num) := by
  unfold searchResult
  refine foldl_invariant (SearchInv num) (fun base => 2 ≤ base) (baseStep est num)
    (fun s x hs hx => baseStep_inv est num x s hn hmax hx hs) _
    (fun x hx => two_le_of_mem_basesUpTo hx) _ ?_
  intro h
  simp at h

/-- The triple returned for `num ≥ 4`: a base of at least 2, an exponent of at
least 1, a remainder of at least 1, and the power plus the remainder is `num`. -/
theorem decomposeInteger_large (est : FloatEst) (num : Int) (hn : 4 ≤ num)
    (hmax : num ≤ 9223372036854775807) :
    2 ≤ (decomposeInteger est num).Base ∧ 1 ≤ (decomposeInteger est num).Exponent ∧
      1 ≤ (decomposeInteger est num).Remainder ∧
      (decomposeInteger est num).Base ^ (decomposeInteger est num).Exponent.toNat +
        (decomposeInteger est num).Remainder = num := by
  have hinv := searchResult_inv est num hn hmax
  unfold decomposeInteger
  have h4 : ¬ num < 4 := by omega
  simp only [h4, if_false]
  by_cases hf : (searchResult est num).found = true
  · simpa [hf] using hinv hf
  · have hw : wrap (num - 1) = num - 1 := wrap_of_isInt64 (by unfold IsInt64; omega)
    simp only [hf, Bool.not_false, if_true, hw]
    simp
    omega

theorem decomposeInteger_small (est : FloatEst) (num : Int) (hn : num < 4) :
    decomposeInteger est num = { Base := num, Exponent := 1, Remainder := 0 } := by
  simp [decomposeInteger, hn]

/-- The power of the returned triple, computed by `intPow`, plus the remainder
is the number, the three components are non-negative and fit 64 bits. -/
theorem decomposeInteger_identity (est : FloatEst) (num : Int) (h0 : 0 ≤ num)
    (hmax : num ≤ 9223372036854775807) :
    intPow (decomposeInteger est num).Base (decomposeInteger est num).Exponent +
        (decomposeInteger est num).Remainder = num ∧
      0 ≤ (decomposeInteger est num).Base ∧ (decomposeInteger est num).Base ≤ num ∧
      0 ≤ (decomposeInteger est num).Exponent ∧ (decomposeInteger est num).Exponent ≤ 63 ∧
      0 ≤ (decomposeInteger est num).Remainder ∧ (decomposeInteger est num).Remainder ≤ num := by
  by_cases hn : num < 4
  · rw [decomposeInteger_small est num hn]
    simp only
    rw [intPow_one_exp num (by unfold IsInt64; omega)]
    omega
  · obtain ⟨hb, he, hr, hsum⟩ := decomposeInteger_large est num (by omega) hmax
    generalize decomposeInteger est num = d at *
    have hpos : 0 < d.Base ^ d.Exponent.toNat := pow_pos (by omega) _
    rw [intPow_eq_pow d.Base d.Exponent (by omega) (by unfold IsInt64; omega)]
    have hbase : d.Base ≤ d.Base ^ d.Exponent.toNat :=
      le_self_pow₀ (by omega) (by omega)
    have hexp : d.Exponent ≤ 63 := by
      by_contra hcon
      have h64 : (2 : Int) ^ 64 ≤ d.Base ^ d.Exponent.toNat := by
        calc (2 : Int) ^ 64 ≤ 2 ^ d.Exponent.toNat :=
              pow_le_pow_right₀ (by omega) (by omega)
          _ ≤ d.Base ^ d.Exponent.toNat := pow_le_pow_left₀ (by omega) hb _
      norm_num at h64
      omega
    omega

/-! ## Lemmas: parsing -/

theorem parseUintLoop_append (xs ys : GoString) (acc : Nat) :
    parseUintLoop (xs ++ ys) acc =
      match parseUintLoop xs acc with
      | .value v => parseUintLoop ys v
      | .invalid => .invalid
      | .outOfRange => .outOfRange := by
  induction xs generalizing acc with
  | nil => simp [parseUintLoop]
  | cons c cs ih =>
    simp only [List.cons_append, parseUintLoop]
    split
    · rfl
    · split
      · rfl
      · split
        · rfl
        · exact ih _

theorem parseUintLoop_digit (c v : Nat) (hc : isDigit c = true) (hv : v < 1844674407370955161) :
    parseUintLoop [c] v = .value (v * 10 + (c - 48)) := by
  unfold isDigit at hc
  simp only [Bool.and_eq_true, decide_eq_true_eq] at hc
  have h1 : ¬ v ≥ 1844674407370955162 := by omega
  have h2 : ¬ v * 10 + (c - 48) > 18446744073709551615 := by omega
  simp [parseUintLoop, isDigit, hc.1, hc.2, h1, h2]

theorem parseUintLoop_natToDec (n : Nat) (hn : n ≤ 18446744073709551615) :
    parseUintLoop (natToDec n) 0 = .value n := by
  induction n using Nat.strong_induction_on with
  | _ n ih =>
    by_cases h : n < 10
    · rw [natToDec_small h]
      have h2 : ¬ n > 18446744073709551615 := by omega
      have h3 : 48 + n ≤ 57 := by omega
      simp [parseUintLoop, isDigit, h3, hn]
    · rw [natToDec_step (by omega), parseUintLoop_append, ih (n / 10) (by omega) (by omega)]
      have hd : isDigit (48 + n % 10) = true := by
        unfold isDigit
        simp
        omega
      have h1 : ¬ n / 10 ≥ 1844674407370955162 := by omega
      have h2 : ¬ n / 10 * 10 + (48 + n % 10 - 48) > 18446744073709551615 := by omega
      have h3 : n / 10 * 10 + (48 + n % 10 - 48) = n := by omega
      have h4 : ¬ n > 18446744073709551615 := by omega
      simp only [parseUintLoop, hd, Bool.not_true, Bool.false_eq_true, if_false, h1, h2, h3, h4]

theorem natToDec_head (n : Nat) : ∃ c t, natToDec n = c :: t ∧ 48 ≤ c ∧ c ≤ 57 := by
  induction n using Nat.strong_induction_on with
  | _ n ih =>
    by_cases h : n < 10
    · exact ⟨48 + n, [], natToDec_small h, by omega, by omega⟩
    · obtain ⟨c, t, ht, h1, h2⟩ := ih (n / 10) (by omega)
      exact ⟨c, t ++ [48 + n % 10], by rw [natToDec_step (by omega), ht]; rfl, h1, h2⟩

theorem Atoi_of_digit_head (c : Nat) (t : GoString) (h1 : 48 ≤ c) :
    Atoi (c :: t) =
      match parseUint (c :: t) with
      | .value n => if n ≥ 9223372036854775808 then maxInt64 else (n : Int)
      | .invalid => 0
      | .outOfRange => maxInt64 := by
  unfold Atoi
  split
  · rename_i heq
    simp only [List.cons.injEq] at heq
    omega
  · rename_i heq
    simp only [List.cons.injEq] at heq
    omega
  · rfl

theorem Atoi_natToDec (n : Nat) (hn : n ≤ 9223372036854775807) : Atoi (natToDec n) = (n : Int) := by
  obtain ⟨c, t, ht, h1, _⟩ := natToDec_head n
  have hp := parseUintLoop_natToDec n (by omega)
  rw [ht] at hp
  rw [ht, Atoi_of_digit_head c t h1]
  have h2 : ¬ n ≥ 9223372036854775808 := by omega
  simp [parseUint, hp, h2]

theorem Atoi_neg_natToDec (n : Nat) (hn : n ≤ 9223372036854775808) :
    Atoi (45 :: natToDec n) = -(n : Int) := by
  obtain ⟨c, t, ht, _, _⟩ := natToDec_head n
  have hp := parseUintLoop_natToDec n (by omega)
  rw [ht] at hp
  have h2 : ¬ n > 9223372036854775808 := by omega
  simp [Atoi, ht, parseUint, hp, h2]

/-- Parsing the canonical rendering of an `int` gives the `int` back. -/
theorem Atoi_Itoa (x : Int) (hx : IsInt64 x) : Atoi (Itoa x) = x := by
  unfold IsInt64 at hx
  unfold Itoa
  by_cases h : x < 0
  · simp only [h, if_true]
    rw [Atoi_neg_natToDec _ (by omega)]
    omega
  · simp only [h, if_false]
    rw [Atoi_natToDec _ (by omega)]
    omega

theorem isInt64_Atoi (s : GoString) : IsInt64 (Atoi s) := by
  unfold IsInt64 Atoi
  simp only [minInt64, maxInt64]
  split <;> split <;> (try split) <;> omega

/-! ## Lemmas: the shift cipher -/

theorem encryptNumber_low (n : Int) (hn : IsInt64 n) (h : n < 32) :
    encryptNumber n = ([32], wrap (32 - n)) := by
  unfold IsInt64 at hn
  have h1 : ¬ n ≥ 32 := by omega
  have hs : wrap (n + wrap (32 - n)) = 32 := by unfold wrap; omega
  simp [encryptNumber, h1, hs, wrap32, encodeRune]

theorem encryptNumber_mid (n : Int) (h1 : 32 ≤ n) (h2 : n ≤ 126) :
    encryptNumber n = ([n.toNat], 0) := by
  have hs : wrap (n + 0) = n := by unfold wrap; omega
  have h3 : ¬ n > 126 := by omega
  have h4 : wrap32 n = n := wrap32_of_small (by omega) (by omega)
  have h5 : 0 ≤ n ∧ n ≤ 127 := by omega
  simp only [encryptNumber, ge_iff_le, h1, if_true, hs, h3, if_false, h4, encodeRune, h5]
  simp

theorem encryptNumber_high (n : Int) (hn : IsInt64 n) (h : 126 < n) :
    encryptNumber n = ([126], 126 - n) := by
  unfold IsInt64 at hn
  have h1 : n ≥ 32 := by omega
  have hs : wrap (n + 0) = n := by unfold wrap; omega
  have hw : wrap (126 - n) = 126 - n := by unfold wrap; omega
  have hs2 : wrap (n + (126 - n)) = 126 := by unfold wrap; omega
  have h3 : n > 126 := h
  have he : encodeRune (wrap32 126) = [126] := by decide
  simp only [encryptNumber, h1, if_true, hs, h3, hw, hs2, he]

/-- The character of `encryptNumber` is one byte in the printable range, and
taking the shift away from it gives the number back. -/
theorem encryptNumber_spec (n : Int) (hn : IsInt64 n) :
    ∃ c : Nat, 32 ≤ c ∧ c ≤ 126 ∧ (encryptNumber n).1 = [c] ∧
      wrap ((c : Int) - (encryptNumber n).2) = n := by
  by_cases h1 : n < 32
  · refine ⟨32, by omega, by omega, ?_, ?_⟩
    · rw [encryptNumber_low n hn h1]
    · rw [encryptNumber_low n hn h1]
      unfold IsInt64 at hn
      unfold wrap
      simp only [Nat.cast_ofNat]
      omega
  · by_cases h2 : n ≤ 126
    · refine ⟨n.toNat, by omega, by omega, ?_, ?_⟩
      · rw [encryptNumber_mid n (by omega) h2]
      · rw [encryptNumber_mid n (by omega) h2]
        unfold wrap
        omega
    · refine ⟨126, by omega, by omega, ?_, ?_⟩
      · rw [encryptNumber_high n hn (by omega)]
      · rw [encryptNumber_high n hn (by omega)]
        unfold IsInt64 at hn
        unfold wrap
        simp only [Nat.cast_ofNat]
        omega

theorem decodeRune_ascii (c : Nat) (cs : GoString) (h : c < 128) :
    decodeRune (c :: cs) = ((c : Int), 1) := by
  simp [decodeRune, h]

/-- On a ciphertext of one-byte characters the loop of `decryptASCII` panics
exactly when a position has no shift, and otherwise pairs the characters with
the shifts from offset `i` on. -/
theorem decryptLoop_ascii (shifts : List Int) (enc : GoString) (fuel i : Nat)
    (hasc : ∀ c ∈ enc, c < 128) (hf : enc.length ≤ fuel) (hi : i ≤ shifts.length) :
    decryptLoop shifts fuel i enc =
      if i + enc.length ≤ shifts.length then
        .ok (List.zipWith (fun (c : Nat) (s : Int) => Itoa (wrap ((c : Int) - s))) enc
          (shifts.drop i))
      else .error .indexOutOfRange := by
  induction enc generalizing fuel i with
  | nil => simp [decryptLoop, hi]
  | cons c cs ih =>
    cases fuel with
    | zero => simp at hf
    | succ f =>
      have hc : c < 128 := hasc c (by simp)
      have hcs : ∀ x ∈ cs, x < 128 := fun x hx => hasc x (by simp [hx])
      simp only [decryptLoop, decodeRune_ascii c cs hc, List.drop_succ_cons, List.drop_zero,
        List.length_cons]
      by_cases hlt : i < shifts.length
      · have hget : shifts[i]? = some shifts[i] := List.getElem?_eq_getElem hlt
        rw [hget]
        simp only
        rw [ih f (i + 1) hcs (by simpa using hf) (by omega)]
        have hdrop : shifts.drop i = shifts[i] :: shifts.drop (i + 1) :=
          List.drop_eq_getElem_cons hlt
        by_cases hle : i + 1 + cs.length ≤ shifts.length
        · have hle2 : i + (cs.length + 1) ≤ shifts.length := by omega
          rw [hdrop]
          simp only [hle, hle2, if_true, List.zipWith_cons_cons]
        · have hle2 : ¬ i + (cs.length + 1) ≤ shifts.length := by omega
          simp [hle, hle2]
      · have hget : shifts[i]? = none := List.getElem?_eq_none (by omega)
        have hle2 : ¬ i + (cs.length + 1) ≤ shifts.length := by omega
        rw [hget]
        simp only [hle2, if_false]

theorem encryptSequence_spec (xs : List Int) (hx : ∀ x ∈ xs, IsInt64 x) :
    (∀ c ∈ (encryptSequence (xs.map Itoa)).1, c < 128) ∧
      (encryptSequence (xs.map Itoa)).1.length = xs.length ∧
      (encryptSequence (xs.map Itoa)).2.length = xs.length ∧
      List.zipWith (fun (c : Nat) (s : Int) => Itoa (wrap ((c : Int) - s)))
        (encryptSequence (xs.map Itoa)).1 (encryptSequence (xs.map Itoa)).2 = xs.map Itoa := by
  induction xs with
  | nil => simp [encryptSequence]
  | cons x rest ih =>
    have hx0 : IsInt64 x := hx x (by simp)
    obtain ⟨h1, h2, h3, h4⟩ := ih (fun y hy => hx y (by simp [hy]))
    obtain ⟨c, hc1, hc2, hc3, hc4⟩ := encryptNumber_spec x hx0
    simp only [List.map_cons, encryptSequence, Atoi_Itoa x hx0, hc3, List.singleton_append,
      List.length_cons, List.zipWith_cons_cons, hc4, h2, h3, h4, List.mem_cons]
    refine ⟨?_, trivial, trivial, trivial⟩
    intro d hd
    rcases hd with rfl | hd
    · omega
    · exact h1 d hd

/-- Decrypting what `encryptSequence` produced, with its own shifts, gives the
sequence back. -/
theorem decrypt_encrypt (xs : List Int) (hx : ∀ x ∈ xs, IsInt64 x) :
    decryptASCII (encryptSequence (xs.map Itoa)).1 (encryptSequence (xs.map Itoa)).2 =
      .ok (xs.map Itoa) := by
  obtain ⟨h1, h2, h3, h4⟩ := encryptSequence_spec xs hx
  unfold decryptASCII
  rw [decryptLoop_ascii _ _ _ 0 h1 (le_refl _) (by omega)]
  simp [h2, h3, h4]

/-! ## Lemmas: the chunker -/

theorem padZeros_snoc (s : GoString) (c k : Nat) :
    padZeros (s ++ [c]) ((k : Int) + 1) = padZeros s (k : Int) ++ [c] := by
  unfold padZeros
  simp only [List.length_append, List.length_singleton, Nat.cast_add, Nat.cast_one]
  by_cases h : (s.length : Int) < k
  · have h2 : (s.length : Int) + 1 < (k : Int) + 1 := by omega
    have h3 : ((k : Int) + 1 - ((s.length : Int) + 1)).toNat = ((k : Int) - s.length).toNat := by
      omega
    simp [h, h2, h3]
  · have h2 : ¬ (s.length : Int) + 1 < (k : Int) + 1 := by omega
    simp [h, h2]

theorem padZeros_nil (k : Nat) : padZeros [] (k : Int) = List.replicate k 48 := by
  unfold padZeros
  by_cases h : k = 0
  · subst h
    simp
  · have h0 : ((([] : GoString).length : Nat) : Int) < (k : Int) := by
      simp only [List.length_nil, Nat.cast_zero]
      omega
    simp [h0]

theorem Itoa_natCast (v : Nat) : Itoa (v : Int) = natToDec v := by
  unfold Itoa
  have h : ¬ (v : Int) < 0 := by omega
  simp [h]

/-- A window of at most 18 digits parses to a value whose rendering, padded to
the length of the window, is the window. -/
theorem parse_digit_window (w : GoString) (hd : ∀ c ∈ w, isDigit c = true)
    (hl : w.length ≤ 18) :
    ∃ v : Nat, parseUintLoop w 0 = .value v ∧ v < 10 ^ w.length ∧
      (w ≠ [] → padZeros (natToDec v) (w.length : Int) = w) := by
  induction w using List.reverseRecOn with
  | nil => exact ⟨0, rfl, by simp, fun h => absurd rfl h⟩
  | append_singleton w c ih =>
    have hdw : ∀ x ∈ w, isDigit x = true := fun x hx => hd x (by simp [hx])
    have hc : isDigit c = true := hd c (by simp)
    have hlw : w.length ≤ 17 := by simpa using hl
    obtain ⟨v, hv1, hv2, hv3⟩ := ih hdw (by omega)
    have hpow : 10 ^ w.length ≤ 10 ^ 17 := Nat.pow_le_pow_right (by omega) hlw
    have hvb : v < 1844674407370955161 := by
      have : (10 : Nat) ^ 17 = 100000000000000000 := by norm_num
      omega
    have hcr : 48 ≤ c ∧ c ≤ 57 := by
      unfold isDigit at hc
      simpa using hc
    refine ⟨v * 10 + (c - 48), ?_, ?_, ?_⟩
    · rw [parseUintLoop_append, hv1]
      exact parseUintLoop_digit c v hc hvb
    · rw [List.length_append, List.length_singleton, pow_succ]
      omega
    · intro _
      rw [List.length_append, List.length_singleton]
      push_cast
      by_cases hw : w = []
      · subst hw
        have hv0 : v = 0 := by simpa using hv2
        subst hv0
        rw [natToDec_small (by omega)]
        have e0 : 48 + (0 * 10 + (c - 48)) = c := by omega
        rw [e0]
        simp [padZeros]
      · have hpad := hv3 hw
        by_cases hv0 : v = 0
        · subst hv0
          rw [natToDec_small (by omega)] at hpad ⊢
          have e1 : 48 + (0 * 10 + (c - 48)) = c := by omega
          rw [e1]
          have e2 : padZeros ([] ++ [c]) ((w.length : Int) + 1) = padZeros [] (w.length : Int) ++ [c] :=
            padZeros_snoc [] c w.length
          simp only [List.nil_append] at e2
          rw [e2]
          congr 1
          have hlen : 0 < w.length := List.length_pos.mpr hw
          have e3 : padZeros ([] ++ [48]) (((w.length - 1 : Nat) : Int) + 1) =
              padZeros [] ((w.length - 1 : Nat) : Int) ++ [48] := padZeros_snoc [] 48 (w.length - 1)
          have e4 : (((w.length - 1 : Nat) : Int) + 1) = (w.length : Int) := by omega
          simp only [List.nil_append, e4, Nat.add_zero] at e3
          simp only [Nat.add_zero] at hpad
          rw [e3] at hpad
          rw [padZeros_nil] at hpad ⊢
          have e7 : List.replicate w.length 48 = List.replicate (w.length - 1) 48 ++ [48] := by
            have e8 : w.length = (w.length - 1) + 1 := by omega
            conv_lhs => rw [e8]
            exact List.replicate_succ' _ _
          rw [e7]
          exact hpad
        · have hstep : natToDec (v * 10 + (c - 48)) = natToDec v ++ [c] := by
            rw [natToDec_step (by omega)]
            have e1 : (v * 10 + (c - 48)) / 10 = v := by omega
            have e2 : 48 + (v * 10 + (c - 48)) % 10 = c := by omega
            rw [e1, e2]
          rw [hstep, padZeros_snoc, hpad]

theorem Atoi_digit_window (w : GoString) (hne : w ≠ []) (hd : ∀ c ∈ w, isDigit c = true)
    (hl : w.length ≤ 18) :
    0 ≤ Atoi w ∧ Atoi w < 10 ^ w.length ∧ padZeros (Itoa (Atoi w)) (w.length : Int) = w := by
  obtain ⟨v, hv1, hv2, hv3⟩ := parse_digit_window w hd hl
  have hpow : 10 ^ w.length ≤ 10 ^ 18 := Nat.pow_le_pow_right (by omega) hl
  have h18 : (10 : Nat) ^ 18 = 1000000000000000000 := by norm_num
  have hA : Atoi w = (v : Int) := by
    cases w with
    | nil => exact absurd rfl hne
    | cons c t =>
      have hc : isDigit c = true := hd c (by simp)
      unfold isDigit at hc
      simp only [Bool.and_eq_true, decide_eq_true_eq] at hc
      rw [Atoi_of_digit_head c t hc.1]
      have h2 : ¬ v ≥ 9223372036854775808 := by omega
      simp [parseUint, hv1, h2]
  rw [hA, Itoa_natCast]
  refine ⟨by omega, ?_, hv3 hne⟩
  exact_mod_cast hv2

/-- With a width of at least 1 the loop of `splitDigitsToInts` ends: it cuts the
string into non-empty windows of at most that width and returns their values
and lengths. -/
theorem splitLoop_spec (K : Int) (hK : 1 ≤ K) (fuel : Nat) (d : GoString)
    (hf : d.length ≤ fuel) :
    ∃ ws : List GoString,
      splitLoop K fuel d = .ok (ws.map Atoi, ws.map (fun w => (w.length : Int))) ∧
      ws.flatten = d ∧ ∀ w ∈ ws, w ≠ [] ∧ (w.length : Int) ≤ K := by
  induction fuel generalizing d with
  | zero =>
    have : d = [] := List.length_eq_zero.mp (by omega)
    subst this
    exact ⟨[], by simp [splitLoop], rfl, by simp⟩
  | succ f ih =>
    cases d with
    | nil => exact ⟨[], by simp [splitLoop], rfl, by simp⟩
    | cons c cs =>
      have hk1 : 1 ≤ K.toNat := by omega
      have hdrop : ((c :: cs).drop K.toNat).length ≤ f := by
        simp only [List.length_drop, List.length_cons] at hf ⊢
        omega
      obtain ⟨ws, h1, h2, h3⟩ := ih ((c :: cs).drop K.toNat) hdrop
      refine ⟨(c :: cs).take K.toNat :: ws, ?_, ?_, ?_⟩
      · have hneg : ¬ K < 0 := by omega
        simp only [splitLoop, hneg, if_false, h1, List.map_cons]
      · simp only [List.flatten_cons, h2, List.take_append_drop]
      · intro w hw
        simp only [List.mem_cons] at hw
        rcases hw with rfl | hw
        · constructor
          · intro hnil
            have hlen := congrArg List.length hnil
            simp only [List.length_take, List.length_cons, List.length_nil] at hlen
            omega
          · simp only [List.length_take, List.length_cons]
            omega
        · exact h3 w hw

theorem splitDigitsToInts_spec (d : GoString) (K : Int) (hK : 1 ≤ K) :
    ∃ ws : List GoString,
      splitDigitsToInts d K = .ok (ws.map Atoi, ws.map (fun w => (w.length : Int))) ∧
      ws.flatten = d ∧ ∀ w ∈ ws, w ≠ [] ∧ (w.length : Int) ≤ K :=
  splitLoop_spec K hK d.length d (le_refl _)

theorem zipWith_pad_windows (ws : List GoString)
    (h : ∀ w ∈ ws, w ≠ [] ∧ w.length ≤ 18 ∧ ∀ c ∈ w, isDigit c = true) :
    List.zipWith (fun (v : Int) (w : Int) => padZeros (Itoa v) w) (ws.map Atoi)
      (ws.map (fun w => (w.length : Int))) = ws := by
  induction ws with
  | nil => rfl
  | cons w rest ih =>
    obtain ⟨h1, h2, h3⟩ := h w (by simp)
    simp only [List.map_cons, List.zipWith_cons_cons, (Atoi_digit_window w h1 h3 h2).2.2,
      ih (fun x hx => h x (by simp [hx]))]

/-! ## Lemmas: the digit codec -/

set_option maxRecDepth 1000000 in
theorem Atoi_sprintf03d : ∀ b : Nat, b < 256 → Atoi (sprintf03d b) = (b : Int) := by
  decide

theorem getElem?_append_length {α : Type} (pre : List α) (x : α) (rest : List α) :
    (pre ++ x :: rest)[pre.length]? = some x := by
  induction pre with
  | nil => simp
  | cons y ys ih => simpa using ih

theorem digitsToText_textToDigits (s : GoString) (hs : ∀ b ∈ s, b < 256) :
    digitsToText (textToDigits s) = s := by
  induction s with
  | nil => rfl
  | cons b rest ih =>
    have hb : b < 256 := hs b (by simp)
    have hA := Atoi_sprintf03d b hb
    rw [sprintf03d_eq hb] at hA
    have h1 : ¬ (b : Int) < 0 := by omega
    have h2 : ¬ (b : Int) > 255 := by omega
    have h3 : b % 256 = b := by omega
    simp only [textToDigits, sprintf03d_eq hb, List.cons_append, List.nil_append, digitsToText,
      hA, h1, h2, if_false, Int.toNat_ofNat, h3, ih (fun c hc => hs c (by simp [hc]))]

/-! ## Lemmas: the pipeline -/

theorem decomposeParts_seq (est : FloatEst) (parts : List Int)
    (hp : ∀ p ∈ parts, 0 ≤ p ∧ p ≤ 9223372036854775807) :
    ∃ xs : List Int, (decomposeParts est parts).2 = xs.map Itoa ∧ (∀ x ∈ xs, IsInt64 x) ∧
      xs.length = 3 * parts.length := by
  induction parts with
  | nil => exact ⟨[], rfl, by simp, rfl⟩
  | cons p rest ih =>
    obtain ⟨xs, h1, h2, h3⟩ := ih (fun q hq => hp q (by simp [hq]))
    obtain ⟨hp0, hp1⟩ := hp p (by simp)
    obtain ⟨_, hb0, hb1, he0, he1, hr0, hr1⟩ := decomposeInteger_identity est p hp0 hp1
    refine ⟨(decomposeInteger est p).Base :: (decomposeInteger est p).Exponent ::
      (decomposeInteger est p).Remainder :: xs, ?_, ?_, ?_⟩
    · simp only [decomposeParts, h1, List.map_cons]
    · intro x hx
      simp only [List.mem_cons] at hx
      unfold IsInt64
      rcases hx with rfl | rfl | rfl | hx
      · omega
      · omega
      · omega
      · exact h2 x hx
    · simp only [List.length_cons, h3]
      omega

/-- Chunk by chunk, the triple that `decomposeParts` serialized rebuilds the
chunk value. -/
theorem decomposeParts_triple (est : FloatEst) (parts : List Int)
    (hp : ∀ p ∈ parts, 0 ≤ p ∧ p ≤ 9223372036854775807) (i : Nat) (hi : i < parts.length) :
    ∃ b e r : GoString, (decomposeParts est parts).2[3 * i]? = some b ∧
      (decomposeParts est parts).2[3 * i + 1]? = some e ∧
      (decomposeParts est parts).2[3 * i + 2]? = some r ∧
      wrap (intPow (Atoi b) (Atoi e) + Atoi r) = parts[i] := by
  induction parts generalizing i with
  | nil => simp at hi
  | cons p rest ih =>
    obtain ⟨hp0, hp1⟩ := hp p (by simp)
    obtain ⟨hid, hb0, hb1, he0, he1, hr0, hr1⟩ := decomposeInteger_identity est p hp0 hp1
    cases i with
    | zero =>
      refine ⟨Itoa (decomposeInteger est p).Base, Itoa (decomposeInteger est p).Exponent,
        Itoa (decomposeInteger est p).Remainder, by simp [decomposeParts],
        by simp [decomposeParts], by simp [decomposeParts], ?_⟩
      rw [Atoi_Itoa _ (by unfold IsInt64; omega), Atoi_Itoa _ (by unfold IsInt64; omega),
        Atoi_Itoa _ (by unfold IsInt64; omega), hid]
      simp only [List.getElem_cons_zero]
      exact wrap_of_isInt64 (by unfold IsInt64; omega)
    | succ j =>
      have hj : j < rest.length := by simpa using hi
      obtain ⟨b, e, r, h1, h2, h3, h4⟩ := ih (fun q hq => hp q (by simp [hq])) j hj
      refine ⟨b, e, r, ?_, ?_, ?_, ?_⟩
      · have e1 : 3 * (j + 1) = 3 * j + 1 + 1 + 1 := by omega
        rw [e1]
        simpa [decomposeParts] using h1
      · have e1 : 3 * (j + 1) + 1 = 3 * j + 1 + 1 + 1 + 1 := by omega
        rw [e1]
        simpa [decomposeParts] using h2
      · have e1 : 3 * (j + 1) + 2 = 3 * j + 2 + 1 + 1 + 1 := by omega
        rw [e1]
        simpa [decomposeParts] using h3
      · simpa using h4

theorem rebuildLoop_decomposeParts (est : FloatEst) (parts ls pre : List Int)
    (hlen : parts.length = ls.length) (hp : ∀ p ∈ parts, 0 ≤ p ∧ p ≤ 9223372036854775807) :
    rebuildLoop (pre ++ ls) (decomposeParts est parts).2 pre.length =
      List.zipWith (fun (v : Int) (w : Int) => padZeros (Itoa v) w) parts ls := by
  induction parts generalizing ls pre with
  | nil => simp [decomposeParts, rebuildLoop]
  | cons p rest ih =>
    cases ls with
    | nil => simp at hlen
    | cons l ls =>
      obtain ⟨hp0, hp1⟩ := hp p (by simp)
      obtain ⟨hid, hb0, hb1, he0, he1, hr0, hr1⟩ := decomposeInteger_identity est p hp0 hp1
      have hget : (pre ++ l :: ls)[pre.length]? = some l := getElem?_append_length pre l ls
      have hrec := ih ls (pre ++ [l]) (by simpa using hlen) (fun q hq => hp q (by simp [hq]))
      simp only [List.append_assoc, List.singleton_append, List.length_append,
        List.length_singleton] at hrec
      simp only [decomposeParts, rebuildLoop, hget, List.zipWith_cons_cons, hrec]
      rw [Atoi_Itoa _ (by unfold IsInt64; omega), Atoi_Itoa _ (by unfold IsInt64; omega),
        Atoi_Itoa _ (by unfold IsInt64; omega), hid, wrap_of_isInt64 (by unfold IsInt64; omega)]

/-- The guard leaves a list alone in which every entry is already the original
value padded to its width. -/
theorem guardLoop_padded (parts ls preO preL : List Int) (hpre : preO.length = preL.length) :
    guardLoop (preO ++ parts) (preL ++ ls)
        (List.zipWith (fun (v : Int) (w : Int) => padZeros (Itoa v) w) parts ls) preO.length =
      List.zipWith (fun (v : Int) (w : Int) => padZeros (Itoa v) w) parts ls := by
  induction parts generalizing ls preO preL with
  | nil => simp [guardLoop]
  | cons p rest ih =>
    cases ls with
    | nil => simp [guardLoop]
    | cons l ls =>
      have hget1 : (preO ++ p :: rest)[preO.length]? = some p := getElem?_append_length preO p rest
      have hget2 : (preL ++ l :: ls)[preO.length]? = some l := by
        rw [hpre]
        exact getElem?_append_length preL l ls
      have hrec := ih ls (preO ++ [p]) (preL ++ [l]) (by simp [hpre])
      simp only [List.append_assoc, List.singleton_append, List.length_append,
        List.length_singleton] at hrec
      simp only [List.zipWith_cons_cons, guardLoop, hget1, hget2, hrec, ite_self]

/-- Everything the pipeline of `processInput` does to a string of bytes: the
chunker cuts the digit string into windows, the cipher returns the serialized
sequence unchanged, and the first loop of `reconstructOriginal` rebuilds the
windows. -/
theorem pipeline_facts (est : FloatEst) (s : GoString) (hs : ∀ b ∈ s, b < 256) :
    ∃ ws : List GoString,
      splitDigitsToInts (textToDigits s) 9 =
        .ok (ws.map Atoi, ws.map (fun w => (w.length : Int))) ∧
      ws.flatten = textToDigits s ∧
      (∀ p ∈ ws.map Atoi, 0 ≤ p ∧ p ≤ 9223372036854775807) ∧
      decryptASCII (encryptSequence (decomposeParts est (ws.map Atoi)).2).1
        (encryptSequence (decomposeParts est (ws.map Atoi)).2).2 =
          .ok (decomposeParts est (ws.map Atoi)).2 ∧
      rebuildLoop (ws.map (fun w => (w.length : Int))) (decomposeParts est (ws.map Atoi)).2 0 = ws ∧
      guardLoop (ws.map Atoi) (ws.map (fun w => (w.length : Int))) ws 0 = ws := by
  obtain ⟨ws, h1, h2, h3⟩ := splitDigitsToInts_spec (textToDigits s) 9 (by omega)
  have hdig := textToDigits_isDigit s hs
  have hw : ∀ w ∈ ws, w ≠ [] ∧ w.length ≤ 18 ∧ ∀ c ∈ w, isDigit c = true := by
    intro w hw
    obtain ⟨ha, hb⟩ := h3 w hw
    refine ⟨ha, by omega, ?_⟩
    intro c hc
    apply hdig
    rw [← h2]
    exact List.mem_flatten.mpr ⟨w, hw, hc⟩
  have hp : ∀ p ∈ ws.map Atoi, 0 ≤ p ∧ p ≤ 9223372036854775807 := by
    intro p hp
    obtain ⟨w, hw1, rfl⟩ := List.mem_map.mp hp
    obtain ⟨ha, hb, hc⟩ := hw w hw1
    have hI := isInt64_Atoi w
    unfold IsInt64 at hI
    exact ⟨(Atoi_digit_window w ha hc hb).1, hI.2⟩
  obtain ⟨xs, hx1, hx2, _⟩ := decomposeParts_seq est (ws.map Atoi) hp
  have hzip := zipWith_pad_windows ws hw
  have hreb := rebuildLoop_decomposeParts est (ws.map Atoi) (ws.map (fun w => (w.length : Int)))
    [] (by simp) hp
  simp only [List.nil_append, List.length_nil, hzip] at hreb
  have hguard := guardLoop_padded (ws.map Atoi) (ws.map (fun w => (w.length : Int))) [] [] rfl
  simp only [List.nil_append, List.length_nil, hzip] at hguard
  refine ⟨ws, h1, h2, hp, ?_, hreb, hguard⟩
  rw [hx1]
  exact decrypt_encrypt xs hx2

theorem processInput_bytes (est : FloatEst) (s : GoString) (hs : ∀ b ∈ s, b < 256) :
    processInput est s = .ok s := by
  obtain ⟨ws, h1, h2, _, h4, h5, h6⟩ := pipeline_facts est s hs
  unfold processInput
  rw [h1]
  simp only [h4, reconstructOriginal, h5, h6, h2]
  rw [digitsToText_textToDigits s hs]

theorem lt_256_of_printable {s : GoString} (hs : ∀ b ∈ s, 32 ≤ b ∧ b ≤ 126) :
    ∀ b ∈ s, b < 256 := fun b hb => by
  have := hs b hb
  omega

/-! ## Lemmas: reaching a candidate -/

theorem probe_found (num base exp : Int) (st : SearchState) (h : st.found = true) :
    (probe num base st exp).found = true := by
  unfold probe
  simp only
  split
  · exact h
  · split
    · exact h
    · split
      · rfl
      · exact h

theorem baseStep_found (est : FloatEst) (num base : Int) (st : SearchState)
    (h : st.found = true) : (baseStep est num st base).found = true := by
  unfold baseStep
  exact foldl_invariant (fun s => s.found = true) (fun _ => True) (probe num base)
    (fun s x hs _ => probe_found num base x s hs) _ (fun _ _ => trivial) st h

theorem basesUpTo_cons (maxBase : Int) (h : 2 ≤ maxBase) :
    ∃ rest : List Int, basesUpTo maxBase = 2 :: rest := by
  unfold basesUpTo
  obtain ⟨k, hk⟩ : ∃ k : Nat, (maxBase - 1).toNat = k + 1 := ⟨(maxBase - 1).toNat - 1, by omega⟩
  rw [hk, List.range_succ_eq_map]
  exact ⟨_, rfl⟩

/-- When the estimate for base 2 is the integer logarithm, the first probe of
base 2 already records a candidate. -/
theorem baseStep_two_found (est : FloatEst) (num : Int) (st : SearchState) (hn : 4 ≤ num)
    (hmax : num ≤ 9223372036854775807) (hmin : st.minRemainder = num)
    (hg0 : 0 ≤ est.logRatio num 2)
    (hlo : (2 : Int) ^ (est.logRatio num 2).toNat ≤ num)
    (hhi : num < (2 : Int) ^ ((est.logRatio num 2).toNat + 1)) :
    (baseStep est num st 2).found = true := by
  have hg2 : 2 ≤ (est.logRatio num 2).toNat := by
    by_contra hcon
    have hle : (est.logRatio num 2).toNat + 1 ≤ 2 := by omega
    have : (2 : Int) ^ ((est.logRatio num 2).toNat + 1) ≤ 2 ^ 2 :=
      pow_le_pow_right₀ (by omega) hle
    norm_num at this
    omega
  unfold baseStep exponentsFor
  simp only [List.foldl_cons, List.foldl_nil]
  apply probe_found
  apply probe_found
  generalize est.logRatio num 2 = g at *
  have hexp : (g - 1).toNat + 1 = g.toNat := by omega
  have hpow : (2 : Int) ^ g.toNat = 2 ^ (g - 1).toNat * 2 := by rw [← hexp, pow_succ]
  have hpos : (0 : Int) < 2 ^ (g - 1).toNat := pow_pos (by omega) _
  have hle : (2 : Int) ^ (g - 1).toNat ≤ num := by omega
  have hw : wrap (num - 2 ^ (g - 1).toNat) = num - 2 ^ (g - 1).toNat :=
    wrap_of_isInt64 (by unfold IsInt64; omega)
  have h1 : ¬ g - 1 < 1 := by omega
  unfold probe
  simp only [h1, if_false]
  rw [intPowUpToLimit_eq 2 (g - 1) num (by omega) (by omega) hmax]
  simp only [hle, if_true, Bool.false_or, decide_eq_true_eq, not_lt.mpr hle, if_false, hw, hmin]
  have hc : num - 2 ^ (g - 1).toNat > 0 ∧ num - 2 ^ (g - 1).toNat < num := by omega
  simp only [hc, and_self, if_true]

theorem searchResult_found (est : FloatEst) (num : Int) (hn : 4 ≤ num)
    (hmax : num ≤ 9223372036854775807) (hs : 0 ≤ est.sqrtFloor num)
    (hg0 : 0 ≤ est.logRatio num 2)
    (hlo : (2 : Int) ^ (est.logRatio num 2).toNat ≤ num)
    (hhi : num < (2 : Int) ^ ((est.logRatio num 2).toNat + 1)) :
    (searchResult est num).found = true := by
  unfold searchResult
  obtain ⟨rest, hrest⟩ := basesUpTo_cons (est.sqrtFloor num + 2) (by omega)
  rw [hrest, List.foldl_cons]
  refine foldl_invariant (fun s => s.found = true) (fun _ => True) (baseStep est num)
    (fun s x hs _ => baseStep_found est num x s hs) _ (fun _ _ => trivial) _ ?_
  exact baseStep_two_found est num
    { best := { Base := 0, Exponent := 0, Remainder := 0 }, minRemainder := num, found := false }
    hn hmax rfl hg0 hlo hhi

/-! ## Lemmas: the minimum of the search -/

theorem minInv_congr {num : Int} {P Q : Int → Int → Prop} {st : SearchState}
    (h : ∀ b e, P b e ↔ Q b e) (hP : MinInv num P st) : MinInv num Q st := by
  have hPQ : P = Q := funext fun b => funext fun e => propext (h b e)
  rw [← hPQ]
  exact hP

theorem probe_minInv (num base exp : Int) (P : Int → Int → Prop) (st : SearchState)
    (hn : 4 ≤ num) (hmax : num ≤ 9223372036854775807) (hb : 2 ≤ base)
    (hP : ∀ b e, P b e → b ≤ base) (h : MinInv num P st) :
    MinInv num (fun b e => P b e ∨ (b = base ∧ e = exp)) (probe num base st exp) := by
  obtain ⟨h1, h2, h3, h4⟩ := h
  -- the state is kept: the new pair is no candidate or does not improve
  have keep : (1 ≤ exp → base ^ exp.toNat < num → st.minRemainder ≤ num - base ^ exp.toNat) →
      MinInv num (fun b e => P b e ∨ (b = base ∧ e = exp)) st := by
    intro hnew
    refine ⟨h1, h2, ?_, ?_⟩
    · intro b e hbe he hpow
      rcases hbe with hbe | ⟨rfl, rfl⟩
      · exact h3 b e hbe he hpow
      · exact hnew he hpow
    · intro hf
      obtain ⟨g1, g2, g3, g4, g5, g6⟩ := h4 hf
      refine ⟨Or.inl g1, g2, g3, g4, g5, ?_⟩
      intro b e hbe he hpow heq
      rcases hbe with hbe | ⟨rfl, rfl⟩
      · exact g6 b e hbe he hpow heq
      · exact hP _ _ g1
  unfold probe
  by_cases he : exp < 1
  · simp only [he, if_true]
    exact keep (fun h => absurd h (by omega))
  · simp only [he, if_false]
    rw [intPowUpToLimit_eq base exp num (by omega) (by omega) hmax]
    by_cases hp : base ^ exp.toNat ≤ num
    · have hpos : 0 < base ^ exp.toNat := pow_pos (by omega) _
      have hw : wrap (num - base ^ exp.toNat) = num - base ^ exp.toNat :=
        wrap_of_isInt64 (by unfold IsInt64; omega)
      simp only [hp, if_true, Bool.false_or, decide_eq_true_eq, not_lt.mpr hp, if_false, hw]
      split
      · rename_i hr
        try rw [hw] at hr
        refine ⟨?_, ?_, ?_, ?_⟩
        · show num - base ^ exp.toNat ≤ num
          omega
        · intro hf
          simp at hf
        · intro b e hbe hge hpow
          show num - base ^ exp.toNat ≤ num - b ^ e.toNat
          rcases hbe with hbe | ⟨rfl, rfl⟩
          · have := h3 b e hbe hge hpow
            omega
          · exact le_refl _
        · intro _
          refine ⟨Or.inr ⟨rfl, rfl⟩, ?_, ?_, rfl, rfl, ?_⟩
          · show 1 ≤ exp
            omega
          · show base ^ exp.toNat < num
            omega
          · intro b e hbe hge hpow heq
            show base ≤ b
            have heq2 : num - b ^ e.toNat = num - base ^ exp.toNat := heq
            rcases hbe with hbe | ⟨rfl, rfl⟩
            · have := h3 b e hbe hge hpow
              omega
            · exact le_refl _
      · rename_i hr
        try rw [hw] at hr
        apply keep
        intro _ hlt
        by_contra hcon
        exact hr ⟨by omega, by omega⟩
    · simp only [hp, if_false, Bool.true_or, if_true]
      exact keep (fun _ hlt => absurd hlt (by omega))

theorem baseStep_minInv (est : FloatEst) (num base : Int) (P : Int → Int → Prop)
    (st : SearchState) (hn : 4 ≤ num) (hmax : num ≤ 9223372036854775807) (hb : 2 ≤ base)
    (hP : ∀ b e, P b e → b ≤ base) (h : MinInv num P st) :
    MinInv num (fun b e => P b e ∨ (b = base ∧ e ∈ exponentsFor est num base))
      (baseStep est num st base) := by
  unfold baseStep exponentsFor
  simp only [List.foldl_cons, List.foldl_nil]
  have s1 := probe_minInv num base (est.logRatio num base - 1) P st hn hmax hb hP h
  have s2 := probe_minInv num base (est.logRatio num base) _ _ hn hmax hb
    (fun b e hbe => by
      rcases hbe with hbe | ⟨rfl, _⟩
      · exact hP b e hbe
      · exact le_refl _) s1
  have s3 := probe_minInv num base (est.logRatio num base + 1) _ _ hn hmax hb
    (fun b e hbe => by
      rcases hbe with (hbe | ⟨rfl, _⟩) | ⟨rfl, _⟩
      · exact hP b e hbe
      · exact le_refl _
      · exact le_refl _) s2
  refine minInv_congr ?_ s3
  intro b e
  simp only [List.mem_cons, List.mem_singleton, List.not_mem_nil, or_false]
  tauto

theorem foldl_bases_minInv (est : FloatEst) (num : Int) (hn : 4 ≤ num)
    (hmax : num ≤ 9223372036854775807) (k : Nat) :
    MinInv num (fun b e => 2 ≤ b ∧ b < (k : Int) + 2 ∧ e ∈ exponentsFor est num b)
      (((List.range k).map (fun (i : Nat) => (i : Int) + 2)).foldl (baseStep est num)
        { best := { Base := 0, Exponent := 0, Remainder := 0 }, minRemainder := num,
          found := false }) := by
  induction k with
  | zero =>
    refine ⟨le_refl _, fun _ => rfl, ?_, ?_⟩
    · intro b e hbe
      simp only [Nat.cast_zero] at hbe
      omega
    · intro hf
      simp at hf
  | succ k ih =>
    rw [List.range_succ, List.map_append, List.foldl_append]
    simp only [List.map_cons, List.map_nil, List.foldl_cons, List.foldl_nil]
    have step := baseStep_minInv est num ((k : Int) + 2) _ _ hn hmax (by omega)
      (fun b e hbe => by
        have := hbe.2.1
        omega) ih
    refine minInv_congr ?_ step
    intro b e
    push_cast
    constructor
    · rintro (⟨h1, h2, h3⟩ | ⟨rfl, h3⟩)
      · exact ⟨h1, by omega, h3⟩
      · exact ⟨by omega, by omega, h3⟩
    · rintro ⟨h1, h2, h3⟩
      by_cases hb : b = (k : Int) + 2
      · subst hb
        exact Or.inr ⟨rfl, h3⟩
      · exact Or.inl ⟨h1, by omega, h3⟩

theorem searchResult_minInv (est : FloatEst) (num : Int) (hn : 4 ≤ num)
    (hmax : num ≤ 9223372036854775807) (hs : 0 ≤ est.sqrtFloor num) :
    MinInv num
      (fun b e => 2 ≤ b ∧ b ≤ est.sqrtFloor num + 2 ∧ e ∈ exponentsFor est num b)
      (searchResult est num) := by
  unfold searchResult basesUpTo
  refine minInv_congr ?_ (foldl_bases_minInv est num hn hmax (est.sqrtFloor num + 2 - 1).toNat)
  intro b e
  have : (((est.sqrtFloor num + 2 - 1).toNat : Nat) : Int) = est.sqrtFloor num + 1 := by omega
  rw [this]
  constructor
  · rintro ⟨h1, h2, h3⟩
    exact ⟨h1, by omega, h3⟩
  · rintro ⟨h1, h2, h3⟩
    exact ⟨h1, by omega, h3⟩

theorem mem_basesUpTo (maxBase b : Int) : b ∈ basesUpTo maxBase ↔ 2 ≤ b ∧ b ≤ maxBase := by
  unfold basesUpTo
  simp only [List.mem_map, List.mem_range]
  constructor
  · rintro ⟨i, hi, rfl⟩
    omega
  · rintro ⟨h1, h2⟩
    exact ⟨(b - 2).toNat, by omega, by omega⟩

/-- When the estimate for a base is the integer logarithm, every exponent that
leaves a positive remainder is dominated by a probed exponent that does. -/
theorem exists_probed_exponent (est : FloatEst) (num b e : Int) (hb : 2 ≤ b)
    (hg0 : 0 ≤ est.logRatio num b) (hlo : b ^ (est.logRatio num b).toNat ≤ num)
    (hhi : num < b ^ ((est.logRatio num b).toNat + 1)) (he : 1 ≤ e)
    (hpow : b ^ e.toNat < num) :
    ∃ e2 : Int, e2 ∈ exponentsFor est num b ∧ 1 ≤ e2 ∧ b ^ e2.toNat < num ∧
      b ^ e.toNat ≤ b ^ e2.toNat := by
  unfold exponentsFor
  generalize est.logRatio num b = g at *
  have hb1 : (1 : Int) ≤ b := by omega
  have hle : e.toNat ≤ g.toNat := by
    by_contra hcon
    have : b ^ (g.toNat + 1) ≤ b ^ e.toNat := pow_le_pow_right₀ hb1 (by omega)
    omega
  by_cases hlt : b ^ g.toNat < num
  · exact ⟨g, by simp, by omega, hlt, pow_le_pow_right₀ hb1 hle⟩
  · have heq : b ^ g.toNat = num := by omega
    have hne : e.toNat ≠ g.toNat := by
      intro h
      rw [h] at hpow
      omega
    have hle2 : e.toNat ≤ (g - 1).toNat := by omega
    have hsucc : (g - 1).toNat + 1 = g.toNat := by omega
    have hpos : 0 < b ^ (g - 1).toNat := pow_pos (by omega) _
    have hlt2 : b ^ (g - 1).toNat < num := by
      rw [← heq, ← hsucc, pow_succ]
      nlinarith
    exact ⟨g - 1, by simp, by omega, hlt2, pow_le_pow_right₀ hb1 hle2⟩

/-- With the integer logarithm as estimate for every base of the search, the
candidate recorded by the search has the minimal positive remainder over every
base of the search and every exponent, and the smallest base that attains it. -/
theorem searchResult_minimal (est : FloatEst) (num : Int) (hn : 4 ≤ num)
    (hmax : num ≤ 9223372036854775807) (hs : 0 ≤ est.sqrtFloor num)
    (hlog : ∀ base ∈ basesUpTo (est.sqrtFloor num + 2),
      0 ≤ est.logRatio num base ∧ base ^ (est.logRatio num base).toNat ≤ num ∧
        num < base ^ ((est.logRatio num base).toNat + 1)) :
    decomposeInteger est num = (searchResult est num).best ∧
      (searchResult est num).best.Base ∈ basesUpTo (est.sqrtFloor num + 2) ∧
      1 ≤ (searchResult est num).best.Exponent ∧
      (searchResult est num).best.Base ^ (searchResult est num).best.Exponent.toNat < num ∧
      (searchResult est num).best.Remainder =
        num - (searchResult est num).best.Base ^ (searchResult est num).best.Exponent.toNat ∧
      (∀ b e : Int, b ∈ basesUpTo (est.sqrtFloor num + 2) → 1 ≤ e → b ^ e.toNat < num →
        (searchResult est num).best.Remainder ≤ num - b ^ e.toNat) ∧
      (∀ b e : Int, b ∈ basesUpTo (est.sqrtFloor num + 2) → 1 ≤ e → b ^ e.toNat < num →
        num - b ^ e.toNat = (searchResult est num).best.Remainder →
        (searchResult est num).best.Base ≤ b) := by
  have h2 := hlog 2 ((mem_basesUpTo _ _).mpr ⟨le_refl _, by omega⟩)
  have hfound := searchResult_found est num hn hmax hs h2.1 h2.2.1 h2.2.2
  obtain ⟨_, _, h3, h4⟩ := searchResult_minInv est num hn hmax hs
  obtain ⟨g1, g2, g3, g4, g5, g6⟩ := h4 hfound
  have key : ∀ b e : Int, b ∈ basesUpTo (est.sqrtFloor num + 2) → 1 ≤ e → b ^ e.toNat < num →
      ∃ e2 : Int, 1 ≤ e2 ∧ b ^ e2.toNat < num ∧ b ^ e.toNat ≤ b ^ e2.toNat ∧
        (2 ≤ b ∧ b ≤ est.sqrtFloor num + 2 ∧ e2 ∈ exponentsFor est num b) := by
    intro b e hb he hpow
    have hb2 := (mem_basesUpTo _ _).mp hb
    obtain ⟨l1, l2, l3⟩ := hlog b hb
    obtain ⟨e2, m1, m2, m3, m4⟩ := exists_probed_exponent est num b e hb2.1 l1 l2 l3 he hpow
    exact ⟨e2, m2, m3, m4, hb2.1, hb2.2, m1⟩
  refine ⟨?_, (mem_basesUpTo _ _).mpr ⟨g1.1, g1.2.1⟩, g2, g3, g4, ?_, ?_⟩
  · unfold decomposeInteger
    have h4n : ¬ num < 4 := by omega
    simp [h4n, hfound]
  · intro b e hb he hpow
    obtain ⟨e2, m2, m3, m4, mP⟩ := key b e hb he hpow
    have := h3 b e2 mP m2 m3
    omega
  · intro b e hb he hpow heq
    obtain ⟨e2, m2, m3, m4, mP⟩ := key b e hb he hpow
    have hmin := h3 b e2 mP m2 m3
    exact g6 b e2 mP m2 m3 (by omega)

/-! ## Lemmas: the value of a string of digits -/

theorem decValueFrom_ge (w : GoString) (acc : Nat) : acc ≤ decValueFrom w acc := by
  induction w generalizing acc with
  | nil => exact le_refl _
  | cons c cs ih =>
    have := ih (acc * 10 + (c - 48))
    simp only [decValueFrom]
    omega

theorem decValueFrom_lt (w : GoString) (acc : Nat) (hd : ∀ c ∈ w, isDigit c = true) :
    decValueFrom w acc + 1 ≤ (acc + 1) * 10 ^ w.length := by
  induction w generalizing acc with
  | nil => simp [decValueFrom]
  | cons c cs ih =>
    have hc : isDigit c = true := hd c (by simp)
    unfold isDigit at hc
    simp only [Bool.and_eq_true, decide_eq_true_eq] at hc
    have h1 := ih (acc * 10 + (c - 48)) (fun x hx => hd x (by simp [hx]))
    have h2 : (acc * 10 + (c - 48) + 1) * 10 ^ cs.length ≤ ((acc + 1) * 10) * 10 ^ cs.length :=
      Nat.mul_le_mul_right _ (by omega)
    simp only [decValueFrom, List.length_cons, pow_succ]
    calc decValueFrom cs (acc * 10 + (c - 48)) + 1
        ≤ (acc * 10 + (c - 48) + 1) * 10 ^ cs.length := h1
      _ ≤ ((acc + 1) * 10) * 10 ^ cs.length := h2
      _ = (acc + 1) * (10 ^ cs.length * 10) := by ring

theorem decValue_lt (w : GoString) (hd : ∀ c ∈ w, isDigit c = true) :
    decValue w < 10 ^ w.length := by
  have := decValueFrom_lt w 0 hd
  unfold decValue
  omega

/-- On a string of digits the loop of `strconv.ParseUint` returns the decimal
value when it fits 64 bits and a range error otherwise. -/
theorem parseUintLoop_digits (w : GoString) (acc : Nat) (hd : ∀ c ∈ w, isDigit c = true)
    (hacc : acc ≤ 18446744073709551615) :
    parseUintLoop w acc =
      if decValueFrom w acc ≤ 18446744073709551615 then .value (decValueFrom w acc)
      else .outOfRange := by
  induction w generalizing acc with
  | nil => simp [parseUintLoop, decValueFrom, hacc]
  | cons c cs ih =>
    have hc : isDigit c = true := hd c (by simp)
    have hge := decValueFrom_ge cs (acc * 10 + (c - 48))
    simp only [parseUintLoop, hc, Bool.not_true, Bool.false_eq_true, if_false, decValueFrom]
    by_cases h1 : acc ≥ 1844674407370955162
    · have h2 : ¬ decValueFrom cs (acc * 10 + (c - 48)) ≤ 18446744073709551615 := by omega
      simp only [h1, if_true, h2, if_false]
    · by_cases h3 : acc * 10 + (c - 48) > 18446744073709551615
      · have h2 : ¬ decValueFrom cs (acc * 10 + (c - 48)) ≤ 18446744073709551615 := by omega
        simp only [h1, if_false, h3, if_true, h2]
      · simp only [h1, if_false, h3]
        exact ih _ (fun x hx => hd x (by simp [hx])) (by omega)

/-- On a non-empty string of digits `strconv.Atoi` returns the decimal value,
or the largest `int` when the value does not fit. -/
theorem Atoi_digits (w : GoString) (hne : w ≠ []) (hd : ∀ c ∈ w, isDigit c = true) :
    Atoi w = min ((decValue w : Nat) : Int) 9223372036854775807 := by
  cases w with
  | nil => exact absurd rfl hne
  | cons c t =>
    have hc : isDigit c = true := hd c (by simp)
    unfold isDigit at hc
    simp only [Bool.and_eq_true, decide_eq_true_eq] at hc
    rw [Atoi_of_digit_head c t hc.1]
    simp only [parseUint, parseUintLoop_digits (c :: t) 0 hd (by omega)]
    unfold decValue
    generalize decValueFrom (c :: t) 0 = v
    by_cases h1 : v ≤ 18446744073709551615
    · simp only [h1, if_true]
      by_cases h2 : v ≥ 9223372036854775808
      · simp only [h2, if_true, maxInt64]
        omega
      · simp only [h2, if_false]
        omega
    · simp only [h1, if_false, maxInt64]
      omega

/-- The codec on digits: one byte per full triple, the value of the triple
capped at 255. -/
theorem digitsToText_digits :
    ∀ d : GoString, (∀ c ∈ d, isDigit c = true) →
      (digitsToText d).length = d.length / 3 ∧
        ∀ i : Nat, i < d.length / 3 →
          (digitsToText d)[i]? = some (min (decValue ((d.drop (3 * i)).take 3)) 255)
  | [], _ => by simp [digitsToText]
  | [_], _ => by simp [digitsToText]
  | [_, _], _ => by simp [digitsToText]
  | a :: b :: c :: rest, hd => by
    have ih := digitsToText_digits rest (fun x hx => hd x (by simp [hx]))
    have habc : ∀ x ∈ [a, b, c], isDigit x = true := fun x hx => hd x (by
      simp only [List.mem_cons, List.mem_singleton, List.not_mem_nil, or_false] at hx
      rcases hx with rfl | rfl | rfl <;> simp)
    have hA := Atoi_digits [a, b, c] (by simp) habc
    have hlt := decValue_lt [a, b, c] habc
    simp only [List.length_cons, List.length_nil] at hlt
    have hbyte : ∀ v : Nat, v < 10 ^ 3 →
        ((if (if ((v : Int) < 0) then 0 else (v : Int)) > 255 then 255
          else (if ((v : Int) < 0) then 0 else (v : Int))).toNat % 256) = min v 255 := by
      intro v hv
      have h0 : ¬ (v : Int) < 0 := by omega
      simp only [h0, if_false]
      by_cases h1 : (v : Int) > 255
      · simp only [h1, if_true]
        omega
      · simp only [h1, if_false]
        omega
    have hmin : min ((decValue [a, b, c] : Nat) : Int) 9223372036854775807 =
        ((decValue [a, b, c] : Nat) : Int) := by omega
    rw [hmin] at hA
    constructor
    · simp only [digitsToText, List.length_cons, ih.1]
      omega
    · intro i hi
      cases i with
      | zero =>
        simp only [digitsToText, hA, hbyte _ hlt, List.getElem?_cons_zero, Nat.mul_zero,
          List.drop_zero, List.take_succ_cons, List.take_zero]
      | succ j =>
        have hj : j < rest.length / 3 := by
          simp only [List.length_cons] at hi
          omega
        have e : 3 * (j + 1) = 3 * j + 1 + 1 + 1 := by omega
        simp only [digitsToText, List.getElem?_cons_succ, e, List.drop_succ_cons]
        exact ih.2 j hj

/-! ## Lemmas: the shape of the chunks -/

theorem ceil_div_step (n k : Nat) (hn : 1 ≤ n) (hk : 1 ≤ k) :
    (n + k - 1) / k = (n - k + k - 1) / k + 1 := by
  by_cases h : k ≤ n
  · have e1 : n + k - 1 = (n - 1) + k := by omega
    have e2 : n - k + k - 1 = n - 1 := by omega
    rw [e1, e2, Nat.add_div_right _ (by omega)]
  · have e1 : n + k - 1 = (n - 1) + k := by omega
    have e2 : n - k + k - 1 = k - 1 := by omega
    rw [e1, e2, Nat.add_div_right _ (by omega), Nat.div_eq_of_lt (by omega : n - 1 < k),
      Nat.div_eq_of_lt (by omega : k - 1 < k)]

/-- With a width `K` of at least 1 the loop of `splitDigitsToInts` ends and
returns the values and lengths of the windows `d[iK : iK + K]`: there are
`ceil(len(d) / K)` of them, every one but the last has length `K`, every one has
a length between 1 and `K`, and the lengths add up to `len(d)`. -/
theorem splitLoop_windows (K : Int) (hK : 1 ≤ K) (fuel : Nat) (d : GoString)
    (hf : d.length ≤ fuel) :
    ∃ ws : List GoString,
      splitLoop K fuel d = .ok (ws.map Atoi, ws.map (fun w => (w.length : Int))) ∧
      ws.length = (d.length + K.toNat - 1) / K.toNat ∧
      (∀ i : Nat, i < ws.length → ws[i]? = some ((d.drop (i * K.toNat)).take K.toNat)) ∧
      (∀ i : Nat, i + 1 < ws.length → ∃ w, ws[i]? = some w ∧ (w.length : Int) = K) ∧
      (∀ w ∈ ws, w ≠ [] ∧ 1 ≤ (w.length : Int) ∧ (w.length : Int) ≤ K) ∧
      (ws.map (fun w => (w.length : Int))).sum = (d.length : Int) := by
  have hk1 : 1 ≤ K.toNat := by omega
  induction fuel generalizing d with
  | zero =>
    have : d = [] := List.length_eq_zero.mp (by omega)
    subst this
    refine ⟨[], by simp [splitLoop], ?_, by simp, by simp, by simp, by simp⟩
    simp only [List.length_nil, Nat.zero_add]
    exact (Nat.div_eq_of_lt (by omega)).symm
  | succ f ih =>
    cases d with
    | nil =>
      refine ⟨[], by simp [splitLoop], ?_, by simp, by simp, by simp, by simp⟩
      simp only [List.length_nil, Nat.zero_add]
      exact (Nat.div_eq_of_lt (by omega)).symm
    | cons c cs =>
      have hdrop : ((c :: cs).drop K.toNat).length ≤ f := by
        simp only [List.length_drop, List.length_cons] at hf ⊢
        omega
      obtain ⟨ws, h1, h2, h3, h4, h5, h6⟩ := ih ((c :: cs).drop K.toNat) hdrop
      have hlen0 : ((c :: cs).take K.toNat).length = min K.toNat (cs.length + 1) := by
        simp only [List.length_take, List.length_cons]
      refine ⟨(c :: cs).take K.toNat :: ws, ?_, ?_, ?_, ?_, ?_, ?_⟩
      · have hneg : ¬ K < 0 := by omega
        simp only [splitLoop, hneg, if_false, h1, List.map_cons]
      · rw [List.length_cons, h2, List.length_drop]
        exact (ceil_div_step (c :: cs).length K.toNat (by simp) hk1).symm
      · intro i hi
        cases i with
        | zero => simp
        | succ j =>
          have hj : j < ws.length := by simpa using hi
          rw [List.getElem?_cons_succ, h3 j hj, List.drop_drop]
          have e : K.toNat + j * K.toNat = (j + 1) * K.toNat := by ring
          rw [e]
      · intro i hi
        cases i with
        | zero =>
          refine ⟨(c :: cs).take K.toNat, by simp, ?_⟩
          have hpos : 0 < ws.length := by simpa using hi
          rw [h2, List.length_drop] at hpos
          have hgt : K.toNat < (c :: cs).length := by
            by_contra hcon
            have e : (c :: cs).length - K.toNat + K.toNat - 1 = K.toNat - 1 := by omega
            rw [e, Nat.div_eq_of_lt (by omega)] at hpos
            omega
          simp only [List.length_cons] at hgt
          rw [hlen0]
          omega
        | succ j =>
          have hj : j + 1 < ws.length := by simpa using hi
          obtain ⟨w, hw1, hw2⟩ := h4 j hj
          exact ⟨w, by simpa using hw1, hw2⟩
      · intro w hw
        simp only [List.mem_cons] at hw
        rcases hw with rfl | hw
        · refine ⟨?_, ?_, ?_⟩
          · intro hnil
            have hl := congrArg List.length hnil
            rw [hlen0] at hl
            simp only [List.length_nil] at hl
            omega
          · rw [hlen0]
            omega
          · rw [hlen0]
            omega
        · exact h5 w hw
      · simp only [List.map_cons, List.sum_cons, h6, hlen0, List.length_drop, List.length_cons]
        omega

/-! ## The claims -/

/-- C1. End-to-end round trip: for every string of printable ASCII characters
(bytes 32 to 126) and whatever the floating-point estimates return, the pipeline
of `processInput` with chunk width 9 ends without a panic and the text it
reconstructs is the input. -/
theorem processInput_roundtrip (est : FloatEst) (s : GoString)
    (hs : ∀ b ∈ s, 32 ≤ b ∧ b ≤ 126) : processInput est s = .ok s :=
  processInput_bytes est s (lt_256_of_printable hs)

/-- Instances of C1: `Hi` comes back as `Hi` and the empty string as the empty string. -/
theorem processInput_roundtrip_witness :
    ((∀ b ∈ ([72, 105] : GoString), 32 ≤ b ∧ b ≤ 126) ∧
        processInput exactEst [72, 105] = .ok [72, 105]) ∧
      ((∀ b ∈ ([] : GoString), 32 ≤ b ∧ b ≤ 126) ∧ processInput exactEst [] = .ok []) :=
  ⟨⟨by decide, processInput_roundtrip exactEst [72, 105] (by decide)⟩,
    ⟨by decide, processInput_roundtrip exactEst [] (by decide)⟩⟩

/-- C2. Decomposition identity: for every `n` with `0 ≤ n` that fits a Go `int`,
and whatever the floating-point estimates return, the triple `(b, e, r)` of
`decomposeInteger n` has `r ≥ 0` and `intPow b e + r = n`, both as an exact
integer sum and as the 64 bit sum the program computes. -/
theorem decomposeInteger_sum (est : FloatEst) (n : Int) (h0 : 0 ≤ n)
    (hmax : n ≤ 9223372036854775807) :
    0 ≤ (decomposeInteger est n).Remainder ∧
      intPow (decomposeInteger est n).Base (decomposeInteger est n).Exponent +
        (decomposeInteger est n).Remainder = n ∧
      wrap (intPow (decomposeInteger est n).Base (decomposeInteger est n).Exponent +
        (decomposeInteger est n).Remainder) = n := by
  obtain ⟨hid, _, _, _, _, hr0, _⟩ := decomposeInteger_identity est n h0 hmax
  refine ⟨hr0, hid, ?_⟩
  rw [hid]
  exact wrap_of_isInt64 (by unfold IsInt64; omega)

/-- Instance of C2 at the chunk 72105 of `Hi`. -/
theorem decomposeInteger_sum_witness :
    (0 : Int) ≤ 72105 ∧ (72105 : Int) ≤ 9223372036854775807 ∧
      0 ≤ (decomposeInteger exactEst 72105).Remainder ∧
      intPow (decomposeInteger exactEst 72105).Base (decomposeInteger exactEst 72105).Exponent +
        (decomposeInteger exactEst 72105).Remainder = 72105 ∧
      wrap (intPow (decomposeInteger exactEst 72105).Base
        (decomposeInteger exactEst 72105).Exponent +
        (decomposeInteger exactEst 72105).Remainder) = 72105 :=
  ⟨by decide, by decide, decomposeInteger_sum exactEst 72105 (by decide) (by decide)⟩

/-- C3, as stated, fails: with width 19 the window of nineteen nines does not
fit a Go `int`, `strconv.Atoi` returns the largest `int`, and the merge gives
`9223372036854775807` instead of the nineteen nines. -/
theorem split_merge_width19 :
    (∀ c ∈ List.replicate 19 57, isDigit c = true) ∧
      splitDigitsToInts (List.replicate 19 57) 19 = .ok ([9223372036854775807], [19]) ∧
      mergeChunks [9223372036854775807] [19] ≠ List.replicate 19 57 := by
  decide

/-- C3, amended. Chunk merge identity for widths whose chunks fit a Go `int`:
for every string `d` of decimal digits and every `K` with `1 ≤ K ≤ 18`,
`splitDigitsToInts d K` returns `(values, widths)` and concatenating every
value, rendered in decimal and left-padded with zeros to its width, gives `d`. -/
theorem split_merge (d : GoString) (K : Int) (hd : ∀ c ∈ d, isDigit c = true) (h1 : 1 ≤ K)
    (h18 : K ≤ 18) :
    ∃ values widths : List Int,
      splitDigitsToInts d K = .ok (values, widths) ∧ mergeChunks values widths = d := by
  obtain ⟨ws, hs1, hs2, hs3⟩ := splitDigitsToInts_spec d K h1
  refine ⟨_, _, hs1, ?_⟩
  unfold mergeChunks
  rw [zipWith_pad_windows ws, hs2]
  intro w hw
  obtain ⟨ha, hb⟩ := hs3 w hw
  refine ⟨ha, by omega, ?_⟩
  intro c hc
  apply hd
  rw [← hs2]
  exact List.mem_flatten.mpr ⟨w, hw, hc⟩

/-- Instance of C3, amended: the digit string `072105` of `Hi` with width 4. -/
theorem split_merge_witness :
    (∀ c ∈ ([48, 55, 50, 49, 48, 53] : GoString), isDigit c = true) ∧ (1 : Int) ≤ 4 ∧
      (4 : Int) ≤ 18 ∧
      ∃ values widths : List Int,
        splitDigitsToInts [48, 55, 50, 49, 48, 53] 4 = .ok (values, widths) ∧
          mergeChunks values widths = [48, 55, 50, 49, 48, 53] :=
  ⟨by decide, by decide, by decide,
    split_merge [48, 55, 50, 49, 48, 53] 4 (by decide) (by decide) (by decide)⟩

/-- C4. Cipher range: for every non-negative `n` that fits a Go `int`, the
string returned by `encryptNumber n` is one character, of one byte, whose code
point lies in the closed range from 32 to 126. -/
theorem encryptNumber_range (n : Int) (h0 : 0 ≤ n) (hmax : n ≤ 9223372036854775807) :
    ∃ c : Nat, (encryptNumber n).1 = [c] ∧ decodeRune (encryptNumber n).1 = ((c : Int), 1) ∧
      32 ≤ c ∧ c ≤ 126 := by
  obtain ⟨c, hc1, hc2, hc3, _⟩ := encryptNumber_spec n (by unfold IsInt64; omega)
  refine ⟨c, hc3, ?_, hc1, hc2⟩
  rw [hc3]
  exact decodeRune_ascii c [] (by omega)

/-- Instance of C4 at the base 268 of the chunk of `Hi`. -/
theorem encryptNumber_range_witness :
    (0 : Int) ≤ 268 ∧ (268 : Int) ≤ 9223372036854775807 ∧
      ∃ c : Nat, (encryptNumber 268).1 = [c] ∧ decodeRune (encryptNumber 268).1 = ((c : Int), 1) ∧
        32 ≤ c ∧ c ≤ 126 :=
  ⟨by decide, by decide, encryptNumber_range 268 (by decide) (by decide)⟩

/-- C5, as stated, fails: the canonical decimal rendering of the integer
`10^20` is a sequence entry that no Go `int` holds; `strconv.Atoi` returns the
largest `int` for it, and decryption gives `9223372036854775807` back instead
of the entry. -/
theorem cipher_inverse_big_integer :
    Itoa 100000000000000000000 = 49 :: List.replicate 20 48 ∧
      decryptASCII (encryptSequence [Itoa 100000000000000000000]).1
          (encryptSequence [Itoa 100000000000000000000]).2 =
        .ok [Itoa 9223372036854775807] ∧
      Itoa 9223372036854775807 ≠ Itoa 100000000000000000000 := by
  decide

/-- C5, amended. Cipher inverse for integers that fit a Go `int`: for every
sequence of canonical decimal renderings of such integers, the ciphertext of
`encryptSequence` has one byte per entry, the shift list one shift per entry,
and `decryptASCII` on the two returns the sequence: same length, same order,
every entry equal. -/
theorem cipher_inverse (xs : List Int) (hx : ∀ x ∈ xs, IsInt64 x) :
    decryptASCII (encryptSequence (xs.map Itoa)).1 (encryptSequence (xs.map Itoa)).2 =
        .ok (xs.map Itoa) ∧
      (encryptSequence (xs.map Itoa)).1.length = (xs.map Itoa).length ∧
      (encryptSequence (xs.map Itoa)).2.length = (xs.map Itoa).length := by
  obtain ⟨_, h2, h3, _⟩ := encryptSequence_spec xs hx
  exact ⟨decrypt_encrypt xs hx, by simpa using h2, by simpa using h3⟩

/-- Instance of C5, amended, at the sequence 268, 2, 281 of `Hi`, with a
negative number and the two extreme `int` values added. -/
theorem cipher_inverse_witness :
    (∀ x ∈ ([268, 2, 281, -5, -9223372036854775808, 9223372036854775807] : List Int),
        IsInt64 x) ∧
      decryptASCII
          (encryptSequence
            (([268, 2, 281, -5, -9223372036854775808, 9223372036854775807] : List Int).map
              Itoa)).1
          (encryptSequence
            (([268, 2, 281, -5, -9223372036854775808, 9223372036854775807] : List Int).map
              Itoa)).2 =
        .ok (([268, 2, 281, -5, -9223372036854775808, 9223372036854775807] : List Int).map
          Itoa) :=
  ⟨by decide, (cipher_inverse [268, 2, 281, -5, -9223372036854775808, 9223372036854775807]
    (by decide)).1⟩

/-- C6, as stated, fails: for `n = 4` the search probes base 2 with exponent 2,
`intPow 2 2` is 4, and `decomposeInteger` returns `(3, 1, 1)`, whose remainder
is 1 and not 0. -/
theorem exact_power_not_selected :
    (4 : Int) ≥ 4 ∧ (2, 2) ∈ probedPairs exactEst 4 ∧ intPow 2 2 = 4 ∧
      intPowUpToLimit 2 2 4 = (4, false) ∧
      decomposeInteger exactEst 4 = { Base := 3, Exponent := 1, Remainder := 1 } ∧
      (decomposeInteger exactEst 4).Remainder ≠ 0 := by
  decide

/-- C6, amended. For every `n ≥ 4` that fits a Go `int`, and whatever the
floating-point estimates return, the remainder of `decomposeInteger n` is at
least 1: a probed pair with `base^exponent = n` is never selected, because a
candidate is recorded only when its remainder is positive. -/
theorem decomposeInteger_remainder_pos (est : FloatEst) (n : Int) (h4 : 4 ≤ n)
    (hmax : n ≤ 9223372036854775807) : 1 ≤ (decomposeInteger est n).Remainder :=
  (decomposeInteger_large est n h4 hmax).2.2.1

/-- Instance of C6, amended, at the exact power `8 = 2^3`. -/
theorem decomposeInteger_remainder_pos_witness :
    (4 : Int) ≤ 8 ∧ (8 : Int) ≤ 9223372036854775807 ∧
      1 ≤ (decomposeInteger exactEst 8).Remainder :=
  ⟨by decide, by decide, decomposeInteger_remainder_pos exactEst 8 (by decide) (by decide)⟩

/-- C7. The decomposition and cipher stage alone is lossless: for every string
of printable ASCII characters and whatever the floating-point estimates return,
the chunker returns `(parts, lens)`, decryption returns a list `dec`, and for
every chunk `i` the sum `intPow base exp + remainder` of the `i`-th decrypted
triple is `parts[i]`. Hence every string the first loop of `reconstructOriginal`
rebuilds parses to the original chunk value, and the consistency guard changes
nothing. -/
theorem pipeline_lossless (est : FloatEst) (s : GoString) (hs : ∀ b ∈ s, 32 ≤ b ∧ b ≤ 126) :
    ∃ (parts lens : List Int) (dec : List GoString),
      splitDigitsToInts (textToDigits s) 9 = .ok (parts, lens) ∧
      decryptASCII (encryptSequence (decomposeParts est parts).2).1
        (encryptSequence (decomposeParts est parts).2).2 = .ok dec ∧
      (∀ (i : Nat) (hi : i < parts.length), ∃ b e r : GoString,
        dec[3 * i]? = some b ∧ dec[3 * i + 1]? = some e ∧ dec[3 * i + 2]? = some r ∧
          wrap (intPow (Atoi b) (Atoi e) + Atoi r) = parts[i]) ∧
      (rebuildLoop lens dec 0).map Atoi = parts ∧
      guardLoop parts lens (rebuildLoop lens dec 0) 0 = rebuildLoop lens dec 0 := by
  obtain ⟨ws, h1, _, h3, h4, h5, h6⟩ := pipeline_facts est s (lt_256_of_printable hs)
  refine ⟨ws.map Atoi, ws.map (fun w => (w.length : Int)), (decomposeParts est (ws.map Atoi)).2,
    h1, h4, ?_, ?_, ?_⟩
  · intro i hi
    exact decomposeParts_triple est (ws.map Atoi) h3 i hi
  · rw [h5]
  · rw [h5]
    exact h6

/-- Instance of C7 at the text `Hi`. -/
theorem pipeline_lossless_witness :
    (∀ b ∈ ([72, 105] : GoString), 32 ≤ b ∧ b ≤ 126) ∧
      ∃ (parts lens : List Int) (dec : List GoString),
        splitDigitsToInts (textToDigits [72, 105]) 9 = .ok (parts, lens) ∧
        decryptASCII (encryptSequence (decomposeParts exactEst parts).2).1
          (encryptSequence (decomposeParts exactEst parts).2).2 = .ok dec ∧
        (∀ (i : Nat) (hi : i < parts.length), ∃ b e r : GoString,
          dec[3 * i]? = some b ∧ dec[3 * i + 1]? = some e ∧ dec[3 * i + 2]? = some r ∧
            wrap (intPow (Atoi b) (Atoi e) + Atoi r) = parts[i]) ∧
        (rebuildLoop lens dec 0).map Atoi = parts ∧
        guardLoop parts lens (rebuildLoop lens dec 0) 0 = rebuildLoop lens dec 0 :=
  ⟨by decide, pipeline_lossless exactEst [72, 105] (by decide)⟩

/-- C8 fails on the code: with the original chunk value 0 of width 6 and the
decrypted triple `0`, `1`, `-105`, the rebuilt integer is -105 and differs from
0, but the guard parses the padded string `00-105`, gets 0 from the failed
parse, and keeps the string; the text returned has the bytes 0 and 105, while
the original value padded to its width decodes to the bytes 0 and 0. -/
theorem reconstructOriginal_guard_miss :
    wrap (intPow (Atoi [48]) (Atoi [49]) + Atoi [45, 49, 48, 53]) = -105 ∧
      rebuildLoop [6] [[48], [49], [45, 49, 48, 53]] 0 = [[48, 48, 45, 49, 48, 53]] ∧
      Atoi [48, 48, 45, 49, 48, 53] = 0 ∧
      reconstructOriginal [[48], [49], [45, 49, 48, 53]] [0] [6] = [0, 105] ∧
      digitsToText (mergeChunks [0] [6]) = [0, 0] := by
  decide

/-- C9, as stated, fails: with the one-character ciphertext `A` and two shifts
the lengths differ, and `decryptASCII` returns the number 64 without a panic. -/
theorem decryptASCII_surplus_shifts :
    ([1, 2] : List Int).length ≠ ([65] : GoString).length ∧
      decryptASCII [65] [1, 2] = .ok [[54, 52]] := by
  decide

theorem zipWith_take_left {α β γ : Type} (f : α → β → γ) (xs : List α) (ys : List β) :
    List.zipWith f xs (ys.take xs.length) = List.zipWith f xs ys := by
  induction xs generalizing ys with
  | nil => simp
  | cons x rest ih =>
    cases ys with
    | nil => simp
    | cons y ys => simp [ih ys]

/-- C9, amended. For every ciphertext of one-byte characters: when the shift
list is shorter than the ciphertext, `decryptASCII` fails with an index out of
range and returns no list; when the shift list is longer, it does not fail, it
returns one number per character, the `i`-th being the code of character `i`
minus `shifts[i]`, and ignores the shifts left over: the result is the one for
the shift list cut to the length of the ciphertext. -/
theorem decryptASCII_lengths (enc : GoString) (shifts : List Int)
    (hasc : ∀ c ∈ enc, c < 128) :
    (shifts.length < enc.length → decryptASCII enc shifts = .error .indexOutOfRange) ∧
      (enc.length < shifts.length →
        decryptASCII enc shifts =
            .ok (List.zipWith (fun (c : Nat) (s : Int) => Itoa (wrap ((c : Int) - s))) enc
              shifts) ∧
          (List.zipWith (fun (c : Nat) (s : Int) => Itoa (wrap ((c : Int) - s))) enc
            shifts).length = enc.length ∧
          decryptASCII enc shifts = decryptASCII enc (shifts.take enc.length)) := by
  constructor
  · intro h
    unfold decryptASCII
    rw [decryptLoop_ascii shifts enc enc.length 0 hasc (le_refl _) (by omega)]
    have h2 : ¬ 0 + enc.length ≤ shifts.length := by omega
    simp only [h2, if_false]
  · intro h
    have h2 : 0 + enc.length ≤ shifts.length := by omega
    have h3 : 0 + enc.length ≤ (shifts.take enc.length).length := by
      simp only [List.length_take]
      omega
    have e1 : decryptASCII enc shifts =
        .ok (List.zipWith (fun (c : Nat) (s : Int) => Itoa (wrap ((c : Int) - s))) enc
          shifts) := by
      unfold decryptASCII
      rw [decryptLoop_ascii shifts enc enc.length 0 hasc (le_refl _) (by omega), if_pos h2,
        List.drop_zero]
    have e2 : decryptASCII enc (shifts.take enc.length) =
        .ok (List.zipWith (fun (c : Nat) (s : Int) => Itoa (wrap ((c : Int) - s))) enc
          shifts) := by
      unfold decryptASCII
      rw [decryptLoop_ascii (shifts.take enc.length) enc enc.length 0 hasc (le_refl _)
        (by omega), if_pos h3, List.drop_zero, zipWith_take_left]
    refine ⟨e1, ?_, ?_⟩
    · simp only [List.length_zipWith]
      omega
    · rw [e1, e2]

/-- Instance of C9, amended: the ciphertext `~ ~` of `Hi` with two shifts fails,
and with four shifts it returns the three numbers 268, 2 and 281, the fourth
shift being ignored. -/
theorem decryptASCII_lengths_witness :
    (∀ c ∈ ([126, 32, 126] : GoString), c < 128) ∧
      decryptASCII [126, 32, 126] [-142, 30] = .error .indexOutOfRange ∧
      decryptASCII [126, 32, 126] [-142, 30, -155, 7] =
        .ok (List.zipWith (fun (c : Nat) (s : Int) => Itoa (wrap ((c : Int) - s)))
          [126, 32, 126] [-142, 30, -155, 7]) ∧
      List.zipWith (fun (c : Nat) (s : Int) => Itoa (wrap ((c : Int) - s)))
          [126, 32, 126] [-142, 30, -155, 7] = [Itoa 268, Itoa 2, Itoa 281] ∧
      decryptASCII [126, 32, 126] [-142, 30, -155, 7] =
        decryptASCII [126, 32, 126] (([-142, 30, -155, 7] : List Int).take
          ([126, 32, 126] : GoString).length) :=
  ⟨by decide,
    (decryptASCII_lengths [126, 32, 126] [-142, 30] (by decide)).1 (by decide),
    ((decryptASCII_lengths [126, 32, 126] [-142, 30, -155, 7] (by decide)).2 (by decide)).1,
    by decide,
    ((decryptASCII_lengths [126, 32, 126] [-142, 30, -155, 7] (by decide)).2
      (by decide)).2.2⟩

/-- C10. Digit encoding: for every byte string, `textToDigits` returns three
characters per byte, all of them decimal digits, and the three characters at
positions `3i` to `3i+2` are the decimal rendering of byte `i` left-padded with
zeros to width 3, that is its hundreds, tens and units digits. -/
theorem textToDigits_spec (text : GoString) (h : ∀ b ∈ text, b < 256) :
    (textToDigits text).length = 3 * text.length ∧
      (∀ c ∈ textToDigits text, 48 ≤ c ∧ c ≤ 57) ∧
      ∀ (i : Nat) (hi : i < text.length),
        ((textToDigits text).drop (3 * i)).take 3 = padZeros (Itoa (text[i] : Int)) 3 ∧
        ((textToDigits text).drop (3 * i)).take 3 =
          [48 + text[i] / 100, 48 + text[i] / 10 % 10, 48 + text[i] % 10] := by
  refine ⟨textToDigits_length text h, ?_, ?_⟩
  · intro c hc
    have hd := textToDigits_isDigit text h c hc
    unfold isDigit at hd
    simpa using hd
  · intro i hi
    have hb : text[i] < 256 := h _ (List.getElem_mem hi)
    have ht := textToDigits_triple text h i hi
    refine ⟨?_, ?_⟩
    · rw [ht, Itoa_natCast]
      rfl
    · rw [ht, sprintf03d_eq hb]

/-- Instance of C10: `Hi` gives `072105`. -/
theorem textToDigits_spec_witness :
    (∀ b ∈ ([72, 105] : GoString), b < 256) ∧
      textToDigits [72, 105] = [48, 55, 50, 49, 48, 53] ∧
      (textToDigits [72, 105]).length = 3 * ([72, 105] : GoString).length :=
  ⟨by decide, by decide, (textToDigits_spec [72, 105] (by decide)).1⟩

/-- C11. Digit decoding: for every string of decimal digit characters,
`digitsToText` returns `floor(len / 3)` bytes, a trailing fragment of 1 or 2
characters being dropped, and byte `i` is `min(v, 255)` where `v` is the decimal
value of the three characters at positions `3i` to `3i+2`. -/
theorem digitsToText_spec (d : GoString) (hd : ∀ c ∈ d, isDigit c = true) :
    (digitsToText d).length = d.length / 3 ∧
      ∀ i : Nat, i < d.length / 3 →
        (digitsToText d)[i]? = some (min (decValue ((d.drop (3 * i)).take 3)) 255) :=
  digitsToText_digits d hd

/-- Instance of C11: `9990721` has seven characters and decodes to the two
bytes 255 and 72. -/
theorem digitsToText_spec_witness :
    (∀ c ∈ ([57, 57, 57, 48, 55, 50, 49] : GoString), isDigit c = true) ∧
      digitsToText [57, 57, 57, 48, 55, 50, 49] = [255, 72] ∧
      (digitsToText [57, 57, 57, 48, 55, 50, 49]).length =
        ([57, 57, 57, 48, 55, 50, 49] : GoString).length / 3 :=
  ⟨by decide, by decide, (digitsToText_spec [57, 57, 57, 48, 55, 50, 49] (by decide)).1⟩

/-- C12. Codec round trip: for every byte string, all 256 byte values allowed,
`digitsToText (textToDigits s)` is `s`. -/
theorem codec_roundtrip (s : GoString) (hs : ∀ b ∈ s, b < 256) :
    digitsToText (textToDigits s) = s :=
  digitsToText_textToDigits s hs

/-- Instance of C12 at the bytes 0, 255, `H` and `i`. -/
theorem codec_roundtrip_witness :
    (∀ b ∈ ([0, 255, 72, 105] : GoString), b < 256) ∧
      digitsToText (textToDigits [0, 255, 72, 105]) = [0, 255, 72, 105] :=
  ⟨by decide, codec_roundtrip [0, 255, 72, 105] (by decide)⟩

/-- C13, as stated, fails: with width 20 the window `10000000000000000000` has
the decimal value `10^19`, which no Go `int` holds, and the value returned for
it is the largest `int`. -/
theorem split_value_width20 :
    (∀ c ∈ (49 :: List.replicate 19 48 : GoString), isDigit c = true) ∧
      splitDigitsToInts (49 :: List.replicate 19 48) 20 = .ok ([9223372036854775807], [20]) ∧
      decValue (49 :: List.replicate 19 48) = 10000000000000000000 ∧
      (9223372036854775807 : Int) ≠ ((decValue (49 :: List.replicate 19 48) : Nat) : Int) := by
  decide

/-- C13, amended. Chunk shape: for every digit string `d` and every `K ≥ 1`,
`splitDigitsToInts d K` ends and returns two lists of the same length
`ceil(len(d) / K)`; every width except possibly the last is `K`, every width is
between 1 and `K`, the widths add up to `len(d)`, and `values[i]` is the
unsigned decimal value of the `i`-th window when that value fits a Go `int`,
which it always does for `K ≤ 18`, and the largest `int` otherwise. -/
theorem splitDigitsToInts_shape (d : GoString) (K : Int) (hd : ∀ c ∈ d, isDigit c = true)
    (hK : 1 ≤ K) :
    ∃ values widths : List Int,
      splitDigitsToInts d K = .ok (values, widths) ∧
      values.length = (d.length + K.toNat - 1) / K.toNat ∧
      widths.length = (d.length + K.toNat - 1) / K.toNat ∧
      (∀ i : Nat, i + 1 < widths.length → widths[i]? = some K) ∧
      (∀ w ∈ widths, 1 ≤ w ∧ w ≤ K) ∧
      widths.sum = (d.length : Int) ∧
      (∀ i : Nat, i < values.length →
        values[i]? = some (min ((decValue ((d.drop (i * K.toNat)).take K.toNat) : Nat) : Int)
          9223372036854775807)) ∧
      (K ≤ 18 → ∀ i : Nat, i < values.length →
        values[i]? = some ((decValue ((d.drop (i * K.toNat)).take K.toNat) : Nat) : Int)) := by
  obtain ⟨ws, h1, h2, h3, h4, h5, h6⟩ := splitLoop_windows K hK d.length d (le_refl _)
  have hval : ∀ i : Nat, i < ws.length →
      (ws.map Atoi)[i]? = some (min ((decValue ((d.drop (i * K.toNat)).take K.toNat) : Nat) : Int)
        9223372036854775807) := by
    intro i hi
    have hw := h3 i hi
    have hmem : (d.drop (i * K.toNat)).take K.toNat ∈ ws := List.getElem?_mem hw
    have hdig : ∀ c ∈ (d.drop (i * K.toNat)).take K.toNat, isDigit c = true :=
      fun c hc => hd c (List.mem_of_mem_drop (List.mem_of_mem_take hc))
    rw [List.getElem?_map, hw, Option.map_some', Atoi_digits _ (h5 _ hmem).1 hdig]
  have h1b : splitDigitsToInts d K =
      .ok (ws.map Atoi, ws.map (fun w => (w.length : Int))) := h1
  refine ⟨ws.map Atoi, ws.map (fun w => (w.length : Int)), h1b, by simp [h2], by simp [h2],
    ?_, ?_, h6, ?_, ?_⟩
  · intro i hi
    obtain ⟨w, hw1, hw2⟩ := h4 i (by simpa using hi)
    rw [List.getElem?_map, hw1, Option.map_some', hw2]
  · intro w hw
    obtain ⟨x, hx1, rfl⟩ := List.mem_map.mp hw
    exact (h5 x hx1).2
  · intro i hi
    exact hval i (by simpa using hi)
  · intro h18 i hi
    have hi2 : i < ws.length := by simpa using hi
    rw [hval i hi2]
    have hw := h3 i hi2
    have hmem : (d.drop (i * K.toNat)).take K.toNat ∈ ws := List.getElem?_mem hw
    have hdig : ∀ c ∈ (d.drop (i * K.toNat)).take K.toNat, isDigit c = true :=
      fun c hc => hd c (List.mem_of_mem_drop (List.mem_of_mem_take hc))
    have hlt := decValue_lt _ hdig
    have hlen : ((d.drop (i * K.toNat)).take K.toNat).length ≤ 18 := by
      have := (h5 _ hmem).2.2
      omega
    have hpow : 10 ^ ((d.drop (i * K.toNat)).take K.toNat).length ≤ 10 ^ 18 :=
      Nat.pow_le_pow_right (by omega) hlen
    have h18v : (10 : Nat) ^ 18 = 1000000000000000000 := by norm_num
    congr 1
    omega

/-- Instance of C13, amended: `072105` with width 9 gives the values `[72105]`
and the widths `[6]`, and the empty string gives two empty lists. -/
theorem splitDigitsToInts_shape_witness :
    (∀ c ∈ ([48, 55, 50, 49, 48, 53] : GoString), isDigit c = true) ∧ (1 : Int) ≤ 9 ∧
      splitDigitsToInts [48, 55, 50, 49, 48, 53] 9 = .ok ([72105], [6]) ∧
      splitDigitsToInts [] 9 = .ok ([], []) ∧
      ∃ values widths : List Int,
        splitDigitsToInts [48, 55, 50, 49, 48, 53] 9 = .ok (values, widths) ∧
          values.length = (([48, 55, 50, 49, 48, 53] : GoString).length + (9 : Int).toNat - 1) /
            (9 : Int).toNat ∧
          widths.sum = (([48, 55, 50, 49, 48, 53] : GoString).length : Int) :=
  ⟨by decide, by decide, by decide, by decide,
    match splitDigitsToInts_shape [48, 55, 50, 49, 48, 53] 9 (by decide) (by decide) with
    | ⟨values, widths, h1, h2, _, _, _, h6, _⟩ => ⟨values, widths, h1, h2, h6⟩⟩

/-- C14. Shift rule: for every Go `int` `n`, the shift returned by
`encryptNumber n` is `32 - n` when `n < 32` (the 64 bit difference, which is the
exact difference unless `n < -9223372036854775775`), 0 when `32 ≤ n ≤ 126`, and
`126 - n` when `n > 126`; the string returned is the single character whose code
point is the 64 bit sum `n + shift`, that is `n` clamped into the range from 32
to 126. -/
theorem encryptNumber_shift_rule (n : Int) (hn : IsInt64 n) :
    (n < 32 → (encryptNumber n).2 = wrap (32 - n)) ∧
      (n < 32 → -9223372036854775775 ≤ n → (encryptNumber n).2 = 32 - n) ∧
      (32 ≤ n → n ≤ 126 → (encryptNumber n).2 = 0) ∧
      (126 < n → (encryptNumber n).2 = 126 - n) ∧
      ∃ c : Nat, (encryptNumber n).1 = [c] ∧ decodeRune [c] = ((c : Int), 1) ∧
        (c : Int) = wrap (n + (encryptNumber n).2) ∧ (c : Int) = max 32 (min n 126) := by
  have hn2 := hn
  unfold IsInt64 at hn2
  refine ⟨?_, ?_, ?_, ?_, ?_⟩
  · intro h
    rw [encryptNumber_low n hn h]
  · intro h h2
    rw [encryptNumber_low n hn h]
    unfold wrap
    omega
  · intro h1 h2
    rw [encryptNumber_mid n h1 h2]
  · intro h
    rw [encryptNumber_high n hn h]
  · by_cases h1 : n < 32
    · rw [encryptNumber_low n hn h1]
      refine ⟨32, rfl, decodeRune_ascii 32 [] (by omega), ?_, ?_⟩
      · unfold wrap
        simp only [Nat.cast_ofNat]
        omega
      · simp only [Nat.cast_ofNat]
        omega
    · by_cases h2 : n ≤ 126
      · rw [encryptNumber_mid n (by omega) h2]
        refine ⟨n.toNat, rfl, decodeRune_ascii _ [] (by omega), ?_, ?_⟩
        · unfold wrap
          omega
        · omega
      · rw [encryptNumber_high n hn (by omega)]
        refine ⟨126, rfl, decodeRune_ascii 126 [] (by omega), ?_, ?_⟩
        · unfold wrap
          simp only [Nat.cast_ofNat]
          omega
        · simp only [Nat.cast_ofNat]
          omega

/-- Instance of C14 at the numbers 2, 72 and 268. -/
theorem encryptNumber_shift_rule_witness :
    IsInt64 2 ∧ IsInt64 72 ∧ IsInt64 268 ∧ (encryptNumber 2).2 = 32 - 2 ∧
      (encryptNumber 72).2 = 0 ∧ (encryptNumber 268).2 = 126 - 268 :=
  ⟨by decide, by decide, by decide,
    (encryptNumber_shift_rule 2 (by decide)).2.1 (by decide) (by decide),
    (encryptNumber_shift_rule 72 (by decide)).2.2.1 (by decide) (by decide),
    (encryptNumber_shift_rule 268 (by decide)).2.2.2.1 (by decide)⟩

/-- C15. Trivial branch: for every `n < 4`, and whatever the floating-point
estimates return, `decomposeInteger n` is exactly `(n, 1, 0)`. -/
theorem decomposeInteger_trivial (est : FloatEst) (n : Int) (h : n < 4) :
    decomposeInteger est n = { Base := n, Exponent := 1, Remainder := 0 } :=
  decomposeInteger_small est n h

/-- Instance of C15: `decomposeInteger 3` is `(3, 1, 0)`. -/
theorem decomposeInteger_trivial_witness :
    (3 : Int) < 4 ∧ decomposeInteger exactEst 3 = { Base := 3, Exponent := 1, Remainder := 0 } :=
  ⟨by decide, decomposeInteger_trivial exactEst 3 (by decide)⟩

/-- C16, as stated, fails: the chunk value 0 is decomposed as `(0, 1, 0)`,
whose base is 0 and not at least 1. -/
theorem decomposeInteger_zero_base :
    (0 : Int) ≥ 0 ∧
      decomposeInteger exactEst 0 = { Base := 0, Exponent := 1, Remainder := 0 } ∧
      ¬ 1 ≤ (decomposeInteger exactEst 0).Base := by
  decide

/-- C16, amended. Decomposition domain invariant: for every chunk value
`n ≥ 1` that fits a Go `int`, and whatever the floating-point estimates return,
the triple of `decomposeInteger n` has a base of at least 1, an exponent of at
least 1 and a remainder of at least 0. -/
theorem decomposeInteger_domain (est : FloatEst) (n : Int) (h1 : 1 ≤ n)
    (hmax : n ≤ 9223372036854775807) :
    1 ≤ (decomposeInteger est n).Base ∧ 1 ≤ (decomposeInteger est n).Exponent ∧
      0 ≤ (decomposeInteger est n).Remainder := by
  by_cases h4 : n < 4
  · rw [decomposeInteger_small est n h4]
    exact ⟨h1, le_refl _, le_refl _⟩
  · obtain ⟨hb, he, hr, _⟩ := decomposeInteger_large est n (by omega) hmax
    exact ⟨by omega, he, by omega⟩

/-- Instance of C16, amended, at the chunk values 1 and 72105. -/
theorem decomposeInteger_domain_witness :
    ((1 : Int) ≤ 1 ∧ (1 : Int) ≤ 9223372036854775807 ∧
        1 ≤ (decomposeInteger exactEst 1).Base) ∧
      ((1 : Int) ≤ 72105 ∧ (72105 : Int) ≤ 9223372036854775807 ∧
        1 ≤ (decomposeInteger exactEst 72105).Base ∧
        1 ≤ (decomposeInteger exactEst 72105).Exponent ∧
        0 ≤ (decomposeInteger exactEst 72105).Remainder) :=
  ⟨⟨by decide, by decide, (decomposeInteger_domain exactEst 1 (by decide) (by decide)).1⟩,
    ⟨by decide, by decide, decomposeInteger_domain exactEst 72105 (by decide) (by decide)⟩⟩

/-- C17. Minimal positive remainder over the search range: for every `n ≥ 4`
that fits a Go `int`, when the square-root bound `s` is the integer square root
of `n` and the exponent estimate of every base from 2 to `s + 2` is the integer
logarithm of `n` in that base, the triple of `decomposeInteger n` has its base
between 2 and `s + 2`, an exponent of at least 1 and the remainder
`n - base^exponent > 0`; this remainder is at most `n - b^e` for every base `b`
from 2 to `s + 2` and every exponent `e ≥ 1` with `b^e < n`, and the base
returned is the smallest base of a pair that attains it. -/
theorem decomposeInteger_minimal (est : FloatEst) (n : Int) (hn : 4 ≤ n)
    (hmax : n ≤ 9223372036854775807)
    (hsqrt : 0 ≤ est.sqrtFloor n ∧ est.sqrtFloor n * est.sqrtFloor n ≤ n ∧
      n < (est.sqrtFloor n + 1) * (est.sqrtFloor n + 1))
    (hlog : ∀ base ∈ basesUpTo (est.sqrtFloor n + 2),
      0 ≤ est.logRatio n base ∧ base ^ (est.logRatio n base).toNat ≤ n ∧
        n < base ^ ((est.logRatio n base).toNat + 1)) :
    (2 ≤ (decomposeInteger est n).Base ∧ (decomposeInteger est n).Base ≤ est.sqrtFloor n + 2) ∧
      1 ≤ (decomposeInteger est n).Exponent ∧
      (decomposeInteger est n).Base ^ (decomposeInteger est n).Exponent.toNat < n ∧
      (decomposeInteger est n).Remainder =
        n - (decomposeInteger est n).Base ^ (decomposeInteger est n).Exponent.toNat ∧
      (∀ b e : Int, 2 ≤ b → b ≤ est.sqrtFloor n + 2 → 1 ≤ e → b ^ e.toNat < n →
        (decomposeInteger est n).Remainder ≤ n - b ^ e.toNat) ∧
      (∀ b e : Int, 2 ≤ b → b ≤ est.sqrtFloor n + 2 → 1 ≤ e → b ^ e.toNat < n →
        n - b ^ e.toNat = (decomposeInteger est n).Remainder →
        (decomposeInteger est n).Base ≤ b) := by
  obtain ⟨h0, h1, h2, h3, h4, h5, h6⟩ := searchResult_minimal est n hn hmax hsqrt.1 hlog
  rw [h0]
  refine ⟨(mem_basesUpTo _ _).mp h1, h2, h3, h4, ?_, ?_⟩
  · intro b e hb1 hb2 he hpow
    exact h5 b e ((mem_basesUpTo _ _).mpr ⟨hb1, hb2⟩) he hpow
  · intro b e hb1 hb2 he hpow heq
    exact h6 b e ((mem_basesUpTo _ _).mpr ⟨hb1, hb2⟩) he hpow heq

/-- Instance of C17 at `n = 17`, where `2^4` and `4^2` both leave the remainder
1: the triple returned is `(2, 4, 1)`. -/
theorem decomposeInteger_minimal_witness :
    (4 : Int) ≤ 17 ∧ (17 : Int) ≤ 9223372036854775807 ∧
      (0 ≤ exactEst.sqrtFloor 17 ∧ exactEst.sqrtFloor 17 * exactEst.sqrtFloor 17 ≤ 17 ∧
        17 < (exactEst.sqrtFloor 17 + 1) * (exactEst.sqrtFloor 17 + 1)) ∧
      (∀ base ∈ basesUpTo (exactEst.sqrtFloor 17 + 2),
        0 ≤ exactEst.logRatio 17 base ∧ base ^ (exactEst.logRatio 17 base).toNat ≤ 17 ∧
          17 < base ^ ((exactEst.logRatio 17 base).toNat + 1)) ∧
      decomposeInteger exactEst 17 = { Base := 2, Exponent := 4, Remainder := 1 } ∧
      (∀ b e : Int, 2 ≤ b → b ≤ exactEst.sqrtFloor 17 + 2 → 1 ≤ e → b ^ e.toNat < 17 →
        (decomposeInteger exactEst 17).Remainder ≤ 17 - b ^ e.toNat) ∧
      (∀ b e : Int, 2 ≤ b → b ≤ exactEst.sqrtFloor 17 + 2 → 1 ≤ e → b ^ e.toNat < 17 →
        17 - b ^ e.toNat = (decomposeInteger exactEst 17).Remainder →
        (decomposeInteger exactEst 17).Base ≤ b) :=
  ⟨by decide, by decide, by decide, by decide, by decide,
    (decomposeInteger_minimal exactEst 17 (by decide) (by decide) (by decide)
      (by decide)).2.2.2.2.1,
    (decomposeInteger_minimal exactEst 17 (by decide) (by decide) (by decide)
      (by decide)).2.2.2.2.2⟩

/-- C18. The fallback is not reached: for every `n ≥ 4` that fits a Go `int`,
when the exponent estimate for base 2 is the integer logarithm of `n` in base 2
(and the square-root bound is not negative, so that base 2 is searched), the
search records a candidate, and `decomposeInteger n` returns the recorded
candidate and not the fallback of the branch `!found`. -/
theorem search_finds_candidate (est : FloatEst) (n : Int) (hn : 4 ≤ n)
    (hmax : n ≤ 9223372036854775807) (hs : 0 ≤ est.sqrtFloor n)
    (hlog : 0 ≤ est.logRatio n 2 ∧ (2 : Int) ^ (est.logRatio n 2).toNat ≤ n ∧
      n < (2 : Int) ^ ((est.logRatio n 2).toNat + 1)) :
    (searchResult est n).found = true ∧ decomposeInteger est n = (searchResult est n).best := by
  have hfound := searchResult_found est n hn hmax hs hlog.1 hlog.2.1 hlog.2.2
  refine ⟨hfound, ?_⟩
  unfold decomposeInteger
  have h4 : ¬ n < 4 := by omega
  simp [h4, hfound]

/-- Instance of C18 at `n = 4`, where the candidate recorded by the search
happens to be `(3, 1, 1)`. -/
theorem search_finds_candidate_witness :
    (4 : Int) ≤ 4 ∧ (4 : Int) ≤ 9223372036854775807 ∧ 0 ≤ exactEst.sqrtFloor 4 ∧
      (0 ≤ exactEst.logRatio 4 2 ∧ (2 : Int) ^ (exactEst.logRatio 4 2).toNat ≤ 4 ∧
        4 < (2 : Int) ^ ((exactEst.logRatio 4 2).toNat + 1)) ∧
      (searchResult exactEst 4).found = true ∧
      decomposeInteger exactEst 4 = (searchResult exactEst 4).best :=
  ⟨by decide, by decide, by decide, by decide,
    search_finds_candidate exactEst 4 (by decide) (by decide) (by decide) (by decide)⟩

/-- C19. Guarded and unguarded exponentiation agree: for all `a ≥ 1`, `b ≥ 0`
and every limit from 1 up to the largest Go `int`, `intPowUpToLimit a b limit`
returns `(a^b, false)` when `a^b ≤ limit` and `(0, true)` otherwise, and in the
first case its value is `intPow a b`, computed by square-and-multiply. -/
theorem intPowUpToLimit_spec (a b limit : Int) (ha : 1 ≤ a) (hb : 0 ≤ b) (hl1 : 1 ≤ limit)
    (hl : limit ≤ 9223372036854775807) :
    (a ^ b.toNat ≤ limit →
        intPowUpToLimit a b limit = (a ^ b.toNat, false) ∧
          (intPowUpToLimit a b limit).1 = intPow a b) ∧
      (limit < a ^ b.toNat → intPowUpToLimit a b limit = (0, true)) := by
  rw [intPowUpToLimit_eq a b limit ha hl1 hl]
  constructor
  · intro h
    have hpos : 0 < a ^ b.toNat := pow_pos (by omega) _
    rw [intPow_eq_pow a b hb (by unfold IsInt64; omega)]
    simp only [h, if_true, and_self]
  · intro h
    simp only [not_le.mpr h, if_false]

/-- Instance of C19: `3^5 = 243` within the limit 243 and beyond the limit 242. -/
theorem intPowUpToLimit_spec_witness :
    ((1 : Int) ≤ 3 ∧ (0 : Int) ≤ 5 ∧ (1 : Int) ≤ 243 ∧ (243 : Int) ≤ 9223372036854775807 ∧
        (3 : Int) ^ (5 : Int).toNat ≤ 243 ∧
        intPowUpToLimit 3 5 243 = ((3 : Int) ^ (5 : Int).toNat, false) ∧
        (intPowUpToLimit 3 5 243).1 = intPow 3 5) ∧
      ((242 : Int) < (3 : Int) ^ (5 : Int).toNat ∧ intPowUpToLimit 3 5 242 = (0, true)) :=
  ⟨⟨by decide, by decide, by decide, by decide, by decide,
      (intPowUpToLimit_spec 3 5 243 (by decide) (by decide) (by decide) (by decide)).1
        (by decide)⟩,
    ⟨by decide,
      (intPowUpToLimit_spec 3 5 242 (by decide) (by decide) (by decide) (by decide)).2
        (by decide)⟩⟩

/-- C20. For every `n ≥ 4` that fits a Go `int`, and whatever the
floating-point estimates return, the triple of `decomposeInteger n` has a base
of at least 2, an exponent of at least 1 and a remainder between 1 and `n - 2`;
hence a remainder of 0 is returned only for `n < 4`. -/
theorem decomposeInteger_large_shape (est : FloatEst) (n : Int)
    (hmax : n ≤ 9223372036854775807) :
    (4 ≤ n → 2 ≤ (decomposeInteger est n).Base ∧ 1 ≤ (decomposeInteger est n).Exponent ∧
        1 ≤ (decomposeInteger est n).Remainder ∧ (decomposeInteger est n).Remainder ≤ n - 2) ∧
      ((decomposeInteger est n).Remainder = 0 → n < 4) := by
  have main : 4 ≤ n → 2 ≤ (decomposeInteger est n).Base ∧
      1 ≤ (decomposeInteger est n).Exponent ∧ 1 ≤ (decomposeInteger est n).Remainder ∧
      (decomposeInteger est n).Remainder ≤ n - 2 := by
    intro h4
    obtain ⟨hb, he, hr, hsum⟩ := decomposeInteger_large est n h4 hmax
    have hpow : (decomposeInteger est n).Base ≤
        (decomposeInteger est n).Base ^ (decomposeInteger est n).Exponent.toNat :=
      le_self_pow₀ (by omega) (by omega)
    exact ⟨hb, he, hr, by omega⟩
  refine ⟨main, ?_⟩
  intro h0
  by_contra hcon
  have := (main (by omega)).2.2.1
  omega

/-- Instance of C20 at the exact power `8 = 2^3` and at the chunk 72105. -/
theorem decomposeInteger_large_shape_witness :
    ((8 : Int) ≤ 9223372036854775807 ∧ (4 : Int) ≤ 8 ∧
        1 ≤ (decomposeInteger exactEst 8).Remainder ∧
        (decomposeInteger exactEst 8).Remainder ≤ 8 - 2) ∧
      ((72105 : Int) ≤ 9223372036854775807 ∧ (4 : Int) ≤ 72105 ∧
        2 ≤ (decomposeInteger exactEst 72105).Base) :=
  ⟨⟨by decide, by decide,
      ((decomposeInteger_large_shape exactEst 8 (by decide)).1 (by decide)).2.2⟩,
    ⟨by decide, by decide,
      ((decomposeInteger_large_shape exactEst 72105 (by decide)).1 (by decide)).1⟩⟩

end CryptoDecompose
